import Mathlib

/-!
# Verification of the Gmail→Sheets extraction engine

Shallow embedding of the repository's extraction core:

* `src/email_parser.py` — `safe_b64_decode`, `strip_html`, `extract_text_body`,
  `get_header`, `parse_email`;
* `src/parsing_tools.py` — `extract_key_value`, `extract_regex_pattern`.

The Python code drives everything through the CPython `re` module, the
`base64` module and `str` methods, so the embedding includes small
executable models of those library functions, faithful to CPython's
behaviour on the pattern constructs the repository uses:

* a recursive-descent parser for the `re` pattern syntax used by the code
  (literals, escapes, character classes, groups `(...)`/`(?:...)`,
  lookahead `(?=...)`, alternation, greedy/lazy `* + ?` and `{m,n}`,
  anchors `^`/`$`, word boundary `\b`, backreferences `\1`, and the inline
  flag groups `(?i)`/`(?is)` that `strip_html`'s patterns begin with);
* a backtracking matcher with CPython's priority order (leftmost match;
  alternation tries the left branch first; greedy repetition prefers more
  iterations, lazy repetition fewer), capture-group environments, and the
  `IGNORECASE` / `DOTALL` flags;
* `re.sub`, `re.escape` (the Python ≥3.7 escape set), `str.strip`,
  `str.lower`, URL-safe base64 decoding (`base64.urlsafe_b64decode`) and
  UTF-8 decoding with `errors="replace"`.

Fallible Python code is modelled with `Except`: an uncaught Python
exception is an `Except.error` value.  The matcher and the pattern parser
take a fuel argument; every entry point supplies a fuel that dominates the
recursion depth, so fuel exhaustion never occurs on the inputs considered
in the theorems (general theorems are stated about the entry points with
their fixed fuel formulas, so no fuel reasoning leaks into statements).
-/

/-! ## Python string primitives -/

/-- Python `str.isspace` / `\s` character set (ASCII range, which is all the
repository's data exercises): space, tab, newline, carriage return,
vertical tab, form feed. -/
def isPyWs (c : Char) : Bool :=
  c = ' ' || c = '\t' || c = '\n' || c = '\r' || c = '\x0b' || c = '\x0c'

/-- Python `\w`: alphanumeric or underscore. -/
def isPyWord (c : Char) : Bool := c.isAlphanum || c = '_'

/-- Python `str.strip()` on a character list. -/
def pyStrip (l : List Char) : List Char :=
  ((l.dropWhile isPyWs).reverse.dropWhile isPyWs).reverse

/-- Python `str.strip()` on a string. -/
def pyStripStr (s : String) : String := String.mk (pyStrip s.data)

/-- Python `str.lower()` (ASCII case folding, which is all the code needs). -/
def pyLower (s : String) : String := String.mk (s.data.map Char.toLower)

/-! ## Regex abstract syntax

The abstract syntax of the fragment of `re` patterns the repository uses. -/

/-- One member of a character class `[...]`. -/
inductive ClsItem where
  | ch (c : Char)
  | range (lo hi : Char)
  | cdigit | cndigit    -- `\d` / `\D`
  | cword  | cnword     -- `\w` / `\W`
  | cspace | cnspace    -- `\s` / `\S`
deriving Repr, DecidableEq

/-- Regex abstract syntax.  Quantifiers are reduced at parse time:
`r+` becomes `seq r (star r)`, `r?` becomes `alt r eps` (greedy) or
`alt eps r` (lazy), `r{m,n}` is unrolled. -/
inductive Rx where
  | eps
  | lit (c : Char)
  | dot
  | cls (neg : Bool) (items : List ClsItem)
  | seq (a b : Rx)
  | alt (a b : Rx)
  | star (lazy : Bool) (r : Rx)
  | grp (n : Nat) (r : Rx)
  | look (r : Rx)                     -- lookahead `(?=r)`
  | bol | eol                          -- `^` / `$` (no MULTILINE anywhere)
  | wordb | nwordb                     -- `\b` / `\B`
  | backref (n : Nat)
deriving Repr, DecidableEq

/-- Matching flags: `re.IGNORECASE` and `re.DOTALL`. -/
structure RFlags where
  ci : Bool := false
  dotall : Bool := false
deriving Repr, DecidableEq

/-- Union of two flag sets (call-site flags plus inline `(?is)` flags). -/
def RFlags.merge (a b : RFlags) : RFlags := ⟨a.ci || b.ci, a.dotall || b.dotall⟩

def clsItemMatch (c : Char) : ClsItem → Bool
  | .ch d => c = d
  | .range lo hi => lo ≤ c && c ≤ hi
  | .cdigit => c.isDigit
  | .cndigit => !c.isDigit
  | .cword => isPyWord c
  | .cnword => !isPyWord c
  | .cspace => isPyWs c
  | .cnspace => !isPyWs c

/-- Does character `c` match the (possibly negated) class, under optional
case-insensitivity?  CPython folds case by also trying the upper/lower
variants of the input character. -/
def clsMatch (ci neg : Bool) (items : List ClsItem) (c : Char) : Bool :=
  let base := fun x => items.any (clsItemMatch x)
  let hit := base c || (ci && (base c.toLower || base c.toUpper))
  if neg then !hit else hit

/-- Literal match under optional case-insensitivity. -/
def litMatch (ci : Bool) (pat input : Char) : Bool :=
  if ci then pat.toLower = input.toLower else pat = input

/-- Structural size of a regex, used for fuel bounds. -/
def rxSize : Rx → Nat
  | .eps | .lit _ | .dot | .cls _ _ | .bol | .eol | .wordb | .nwordb | .backref _ => 1
  | .seq a b | .alt a b => rxSize a + rxSize b + 1
  | .star _ r => rxSize r + 1
  | .grp _ r => rxSize r + 1
  | .look r => rxSize r + 1

/-! ## Parsing `re` pattern strings

A fueled recursive-descent parser for the pattern syntax the repository
uses.  `none` models `re.error` ("malformed pattern").  The group counter
`gn` threads through, numbering capturing groups in order of their opening
parenthesis, exactly as CPython does. -/

/-- Parse one escape inside a character class (input begins after `\`).
`Sum.inl` is a perl class (cannot be a range endpoint), `Sum.inr` a plain
character (can). -/
def pClsEsc : List Char → Option ((ClsItem ⊕ Char) × List Char)
  | [] => none
  | c :: rest =>
    if c = 's' then some (Sum.inl ClsItem.cspace, rest)
    else if c = 'S' then some (Sum.inl ClsItem.cnspace, rest)
    else if c = 'd' then some (Sum.inl ClsItem.cdigit, rest)
    else if c = 'D' then some (Sum.inl ClsItem.cndigit, rest)
    else if c = 'w' then some (Sum.inl ClsItem.cword, rest)
    else if c = 'W' then some (Sum.inl ClsItem.cnword, rest)
    else if c = 'n' then some (Sum.inr '\n', rest)
    else if c = 't' then some (Sum.inr '\t', rest)
    else if c = 'r' then some (Sum.inr '\r', rest)
    else if c = 'f' then some (Sum.inr '\x0c', rest)
    else if c = 'v' then some (Sum.inr '\x0b', rest)
    else if c.isAlphanum then none          -- unknown alphanumeric escape
    else some (Sum.inr c, rest)             -- escaped punctuation: literal

/-- Parse one class atom.  `first` is true right after `[` or `[^`, where
`]` is a literal. -/
def pClsAtom1 (first : Bool) : List Char → Option ((ClsItem ⊕ Char) × List Char)
  | [] => none
  | ']' :: rest => if first then some (Sum.inr ']', rest) else none
  | '\\' :: rest => pClsEsc rest
  | c :: rest => some (Sum.inr c, rest)

/-- Parse the body of a character class up to the closing `]`. -/
def pCls (fuel : Nat) (first : Bool) (cs : List Char) : Option (List ClsItem × List Char) :=
  match fuel with
  | 0 => none
  | fuel+1 =>
    match first, cs with
    | false, ']' :: rest => some ([], rest)
    | _, _ =>
      match pClsAtom1 first cs with
      | none => none
      | some (Sum.inl item, rest) =>
        (pCls fuel false rest).map (fun p => (item :: p.1, p.2))
      | some (Sum.inr a, rest) =>
        match rest with
        | '-' :: ']' :: rest3 => some ([ClsItem.ch a, ClsItem.ch '-'], rest3)
        | '-' :: rest2 =>
          match pClsAtom1 false rest2 with
          | some (Sum.inr b, rest3) =>
            if a ≤ b then
              (pCls fuel false rest3).map (fun p => (ClsItem.range a b :: p.1, p.2))
            else none                        -- bad character range
          | _ => none                        -- range endpoint is a class: error
        | _ => (pCls fuel false rest).map (fun p => (ClsItem.ch a :: p.1, p.2))

/-- `r{n}`: exactly n copies. -/
def rxNTimes (r : Rx) : Nat → Rx
  | 0 => Rx.eps
  | n+1 => Rx.seq r (rxNTimes r n)

/-- Up to n copies, preferring more (greedy `{m,n}` tail). -/
def rxUpToG (r : Rx) : Nat → Rx
  | 0 => Rx.eps
  | n+1 => Rx.alt (Rx.seq r (rxUpToG r n)) Rx.eps

/-- Up to n copies, preferring fewer (lazy `{m,n}?` tail). -/
def rxUpToL (r : Rx) : Nat → Rx
  | 0 => Rx.eps
  | n+1 => Rx.alt Rx.eps (Rx.seq r (rxUpToL r n))

/-- Sequencing smart constructor (drops a trailing `eps`). -/
def rxSeqS (a b : Rx) : Rx :=
  match b with
  | Rx.eps => a
  | _ => Rx.seq a b

def pDigits (cs : List Char) : Option (Nat × List Char) :=
  let ds := cs.takeWhile Char.isDigit
  if ds = [] then none
  else some (ds.foldl (fun acc c => acc * 10 + (c.toNat - 48)) 0, cs.drop ds.length)

/-- Apply an optional postfix quantifier (`*`, `+`, `?`, `{m}`, `{m,}`,
`{m,n}`, each with an optional lazy `?`) to atom `a`.  A `{` that does not
introduce a well-formed bounded quantifier is left in place (CPython then
treats it as a literal). -/
def pQuant (a : Rx) (cs : List Char) : Rx × List Char :=
  match cs with
  | '*' :: '?' :: rest => (Rx.star true a, rest)
  | '*' :: rest => (Rx.star false a, rest)
  | '+' :: '?' :: rest => (Rx.seq a (Rx.star true a), rest)
  | '+' :: rest => (Rx.seq a (Rx.star false a), rest)
  | '?' :: '?' :: rest => (Rx.alt Rx.eps a, rest)
  | '?' :: rest => (Rx.alt a Rx.eps, rest)
  | '{' :: rest =>
    match pDigits rest with
    | some (m, '}' :: '?' :: rest2) => (rxNTimes a m, rest2)
    | some (m, '}' :: rest2) => (rxNTimes a m, rest2)
    | some (m, ',' :: '}' :: '?' :: rest2) => (Rx.seq (rxNTimes a m) (Rx.star true a), rest2)
    | some (m, ',' :: '}' :: rest2) => (Rx.seq (rxNTimes a m) (Rx.star false a), rest2)
    | some (m, ',' :: rest2) =>
      match pDigits rest2 with
      | some (n, '}' :: '?' :: rest3) =>
        if m ≤ n then (rxSeqS (rxNTimes a m) (rxUpToL a (n - m)), rest3) else (a, cs)
      | some (n, '}' :: rest3) =>
        if m ≤ n then (rxSeqS (rxNTimes a m) (rxUpToG a (n - m)), rest3) else (a, cs)
      | _ => (a, cs)
    | _ => (a, cs)
  | _ => (a, cs)

/-- Parse one escape outside a class (input begins after `\`). -/
def pEsc (gn : Nat) (cs : List Char) : Option (Rx × Nat × List Char) :=
  match cs with
  | [] => none
  | c :: rest =>
    if c.isDigit && c ≠ '0' then
      let ds := (c :: rest).takeWhile Char.isDigit
      some (Rx.backref (ds.foldl (fun acc d => acc * 10 + (d.toNat - 48)) 0), gn,
            (c :: rest).drop ds.length)
    else if c = 's' then some (Rx.cls false [ClsItem.cspace], gn, rest)
    else if c = 'S' then some (Rx.cls false [ClsItem.cnspace], gn, rest)
    else if c = 'd' then some (Rx.cls false [ClsItem.cdigit], gn, rest)
    else if c = 'D' then some (Rx.cls false [ClsItem.cndigit], gn, rest)
    else if c = 'w' then some (Rx.cls false [ClsItem.cword], gn, rest)
    else if c = 'W' then some (Rx.cls false [ClsItem.cnword], gn, rest)
    else if c = 'b' then some (Rx.wordb, gn, rest)
    else if c = 'B' then some (Rx.nwordb, gn, rest)
    else if c = 'n' then some (Rx.lit '\n', gn, rest)
    else if c = 't' then some (Rx.lit '\t', gn, rest)
    else if c = 'r' then some (Rx.lit '\r', gn, rest)
    else if c = 'f' then some (Rx.lit '\x0c', gn, rest)
    else if c = 'v' then some (Rx.lit '\x0b', gn, rest)
    else if c.isAlphanum then none
    else some (Rx.lit c, gn, rest)

mutual

/-- Alternation level: `seq ('|' seq)*`. -/
def pAlt (fuel gn : Nat) (cs : List Char) : Option (Rx × Nat × List Char) :=
  match fuel with
  | 0 => none
  | f+1 => do
    let (r, gn1, cs1) ← pSeq f gn cs
    match cs1 with
    | '|' :: rest => do
      let (r2, gn2, cs2) ← pAlt f gn1 rest
      pure (Rx.alt r r2, gn2, cs2)
    | _ => pure (r, gn1, cs1)

/-- Sequence level: quantified atoms until `|`, `)` or end of input. -/
def pSeq (fuel gn : Nat) (cs : List Char) : Option (Rx × Nat × List Char) :=
  match fuel with
  | 0 => none
  | f+1 =>
    match cs with
    | [] => some (Rx.eps, gn, [])
    | '|' :: _ => some (Rx.eps, gn, cs)
    | ')' :: _ => some (Rx.eps, gn, cs)
    | _ => do
      let (a, gn1, cs1) ← pAtom f gn cs
      let (a2, cs2) := pQuant a cs1
      let (b, gn2, cs3) ← pSeq f gn1 cs2
      pure (rxSeqS a2 b, gn2, cs3)

/-- Atom level: group, class, `.`, anchors, escape, or a literal. -/
def pAtom (fuel gn : Nat) (cs : List Char) : Option (Rx × Nat × List Char) :=
  match fuel with
  | 0 => none
  | f+1 =>
    match cs with
    | [] => none
    | '(' :: '?' :: ':' :: rest => do
      let (r, gn1, cs1) ← pAlt f gn rest
      match cs1 with
      | ')' :: cs2 => pure (r, gn1, cs2)
      | _ => none
    | '(' :: '?' :: '=' :: rest => do
      let (r, gn1, cs1) ← pAlt f gn rest
      match cs1 with
      | ')' :: cs2 => pure (Rx.look r, gn1, cs2)
      | _ => none
    | '(' :: '?' :: _ => none                 -- unsupported extension group
    | '(' :: rest => do
      let (r, gn1, cs1) ← pAlt f (gn + 1) rest
      match cs1 with
      | ')' :: cs2 => pure (Rx.grp (gn + 1) r, gn1, cs2)
      | _ => none
    | '[' :: '^' :: rest =>
      (pCls f true rest).map (fun p => (Rx.cls true p.1, gn, p.2))
    | '[' :: rest =>
      (pCls f false rest).map (fun p => (Rx.cls false p.1, gn, p.2))
    | '.' :: rest => some (Rx.dot, gn, rest)
    | '^' :: rest => some (Rx.bol, gn, rest)
    | '$' :: rest => some (Rx.eol, gn, rest)
    | '*' :: _ => none                        -- nothing to repeat
    | '+' :: _ => none
    | '?' :: _ => none
    | '\\' :: rest => pEsc gn rest
    | c :: rest => some (Rx.lit c, gn, rest)

end

/-- Are all backreferences in `r` to groups numbered `≤ n`? -/
def rxBackrefsOk (n : Nat) : Rx → Bool
  | .backref k => decide (1 ≤ k) && decide (k ≤ n)
  | .seq a b | .alt a b => rxBackrefsOk n a && rxBackrefsOk n b
  | .star _ r | .grp _ r | .look r => rxBackrefsOk n r
  | _ => true

/-- Leading inline flag group `(?i)`, `(?s)` or `(?is)`, as used by the
`strip_html` patterns (the repository uses no other inline groups). -/
def pInlineFlags (cs : List Char) : RFlags × List Char :=
  match cs with
  | '(' :: '?' :: rest =>
    let letters := rest.takeWhile (fun c => c = 'i' || c = 's')
    match letters, rest.drop letters.length with
    | [], _ => (⟨false, false⟩, cs)
    | _, ')' :: r2 => (⟨letters.contains 'i', letters.contains 's'⟩, r2)
    | _, _ => (⟨false, false⟩, cs)
  | _ => (⟨false, false⟩, cs)

/-- Model of `re.compile`: parse a pattern string into an `Rx`, the number
of capturing groups, and the inline flags.  `none` models `re.error`. -/
def compilePy (pat : String) : Option (Rx × Nat × RFlags) :=
  let (fl, cs) := pInlineFlags pat.data
  match pAlt (pat.length * 4 + 16) 0 cs with
  | some (r, gn, []) => if rxBackrefsOk gn r then some (r, gn, fl) else none
  | _ => none

/-! ## The backtracking matcher

`mrun` enumerates, in CPython's backtracking priority order, the ways `r`
can match a prefix of the remaining input.  State is a zipper: the
previously consumed character (for `\b` and `^`) plus the remaining
characters.  A capture-group environment records the most recent capture
of each group (newest first, so lookup finds the latest).  Repetition
(`star`) only recurses after consuming at least one character, as CPython
effectively does (a repeated empty match ends the repetition); the bodies
of every `star` the repository's patterns produce consume a character on
every iteration, so this is invisible on the embedded code's patterns. -/

/-- Matcher state: last consumed character (`none` at the very start of
the text) and remaining input. -/
structure MSt where
  prev : Option Char
  rest : List Char
deriving Repr, DecidableEq

/-- Capture-group environment, newest binding first. -/
abbrev GEnv := List (Nat × List Char)

def genvGet (e : GEnv) (n : Nat) : Option (List Char) :=
  (e.find? (fun p => p.1 = n)).map (fun p => p.2)

/-- Is there a word character on the given side? (`\b` support.) -/
def wordAt : Option Char → Bool
  | none => false
  | some c => isPyWord c

/-- Consume one character. -/
def MSt.step (_st : MSt) (c : Char) (xs : List Char) : MSt := ⟨some c, xs⟩

def mrun (fl : RFlags) : Nat → Rx → MSt → GEnv → List (MSt × GEnv)
  | 0, _, _, _ => []
  | _+1, .eps, st, env => [(st, env)]
  | _+1, .lit c, st, env =>
    match st.rest with
    | [] => []
    | x :: xs => if litMatch fl.ci c x then [(st.step x xs, env)] else []
  | _+1, .dot, st, env =>
    match st.rest with
    | [] => []
    | x :: xs => if fl.dotall || x ≠ '\n' then [(st.step x xs, env)] else []
  | _+1, .cls neg items, st, env =>
    match st.rest with
    | [] => []
    | x :: xs => if clsMatch fl.ci neg items x then [(st.step x xs, env)] else []
  | f+1, .seq a b, st, env =>
    (mrun fl f a st env).flatMap (fun p => mrun fl f b p.1 p.2)
  | f+1, .alt a b, st, env => mrun fl f a st env ++ mrun fl f b st env
  | f+1, .star lz r, st, env =>
    let firsts := (mrun fl f r st env).filter (fun p => p.1.rest.length < st.rest.length)
    let deeper := firsts.flatMap (fun p => mrun fl f (.star lz r) p.1 p.2)
    if lz then (st, env) :: deeper else deeper ++ [(st, env)]
  | f+1, .grp n r, st, env =>
    (mrun fl f r st env).map (fun p =>
      (p.1, (n, st.rest.take (st.rest.length - p.1.rest.length)) :: p.2))
  | f+1, .look r, st, env =>
    match mrun fl f r st env with
    | [] => []
    | (_, env') :: _ => [(st, env')]
  | _+1, .bol, st, env => if st.prev = none then [(st, env)] else []
  | _+1, .eol, st, env =>
    match st.rest with
    | [] => [(st, env)]
    | ['\n'] => [(st, env)]
    | _ => []
  | _+1, .wordb, st, env =>
    if wordAt st.prev ≠ wordAt st.rest.head? then [(st, env)] else []
  | _+1, .nwordb, st, env =>
    if wordAt st.prev = wordAt st.rest.head? then [(st, env)] else []
  | _+1, .backref n, st, env =>
    match genvGet env n with
    | none => []                              -- reference to an unset group fails
    | some cap =>
      let taken := st.rest.take cap.length
      if taken.length = cap.length
          && (cap.zip taken).all (fun p => litMatch fl.ci p.1 p.2) then
        [(⟨if taken = [] then st.prev else taken.getLast?, st.rest.drop cap.length⟩, env)]
      else []

/-- Fuel that dominates the matcher's recursion depth: every level either
moves to a strict regex subterm (bounded by `rxSize`) or consumes a
character (the `star` recursion), so depth ≤ (|input|+1)·(size+1). -/
def mfuel (r : Rx) (rest : List Char) : Nat :=
  (rest.length + 2) * (rxSize r + 2)

/-- The highest-priority way `r` matches at position `i` of `text`
(CPython's chosen match at this position): the matched segment and the
group environment.  `none` means no match at this position. -/
def matchAt (fl : RFlags) (r : Rx) (text : List Char) (i : Nat) : Option (List Char × GEnv) :=
  let rest := text.drop i
  let st : MSt := ⟨(text.take i).getLast?, rest⟩
  match (mrun fl (mfuel r rest) r st []).head? with
  | none => none
  | some (st', env) => some (rest.take (rest.length - st'.rest.length), env)

/-- Scan candidate start positions in order; first position that matches
wins (leftmost semantics of `re.search`). -/
def searchIdxs (fl : RFlags) (r : Rx) (text : List Char) : List Nat → Option (Nat × List Char × GEnv)
  | [] => none
  | i :: is =>
    match matchAt fl r text i with
    | some (m, env) => some (i, m, env)
    | none => searchIdxs fl r text is

/-- Model of `re.search`: leftmost match of `r` in `text`, with its start
position, matched segment, and capture environment. -/
def reSearch (fl : RFlags) (r : Rx) (text : List Char) : Option (Nat × List Char × GEnv) :=
  searchIdxs fl r text (List.range (text.length + 1))

/-! ## `re.sub` -/

/-- Find the first match scanning from the current zipper position:
returns (skipped prefix, matched segment, state after the match). -/
def subFind (fl : RFlags) (r : Rx) : Option Char → List Char → Option (List Char × List Char × MSt)
  | prev, rest =>
    match (mrun fl (mfuel r rest) r ⟨prev, rest⟩ []).head? with
    | some (st', _) => some ([], rest.take (rest.length - st'.rest.length), st')
    | none =>
      match rest with
      | [] => none
      | c :: cs =>
        (subFind fl r (some c) cs).map (fun q => (c :: q.1, q.2.1, q.2.2))

/-- One pass of `re.sub`'s replacement loop.  On an empty match the
replacement is emitted and one input character is copied over, as CPython
does; every pattern the repository substitutes with matches at least one
character, so that branch is not exercised by the embedded code. -/
def subGo (fl : RFlags) (r : Rx) (repl : List Char) : Nat → Option Char → List Char → List Char
  | 0, _, rest => rest
  | f+1, prev, rest =>
    match subFind fl r prev rest with
    | none => rest
    | some (pre, m, st') =>
      if m.isEmpty then
        match st'.rest with
        | [] => pre ++ repl
        | c :: cs => pre ++ repl ++ c :: subGo fl r repl f (some c) cs
      else pre ++ repl ++ subGo fl r repl f st'.prev st'.rest

/-- Model of `re.sub` for a compiled pattern, over character lists. -/
def pySub (fl : RFlags) (r : Rx) (repl : List Char) (text : List Char) : List Char :=
  subGo fl r repl (text.length + 1) none text

/-- Model of `re.sub(pat, repl, s)` on a pattern string.  The repository
substitutes only with fixed well-formed patterns; on a pattern that fails
to compile this model returns `s` unchanged (lemmas below show the branch
is never taken by the embedded code). -/
def pySubPat (fl : RFlags) (pat repl s : String) : String :=
  match compilePy pat with
  | none => s
  | some (r, _, ifl) => String.mk (pySub (ifl.merge fl) r repl.data s.data)

/-- The character set `re.escape` has escaped since Python 3.7:
`()[]{}?*+-|^$\.&~#` and the six whitespace characters. -/
def pyEscSet : List Char :=
  ['(', ')', '[', ']', '{', '}', '?', '*', '+', '-', '|', '^', '$', '\\',
   '.', '&', '~', '#', ' ', '\t', '\n', '\r', '\x0b', '\x0c']

/-- Model of `re.escape`. -/
def pyReEscape (s : String) : String :=
  String.mk (s.data.flatMap (fun c => if pyEscSet.contains c then ['\\', c] else [c]))

/-- Plain flags (no `re.IGNORECASE`, no `re.DOTALL`). -/
def noFlags : RFlags := ⟨false, false⟩

/-! ## base64 (`base64.urlsafe_b64decode`) and UTF-8 decoding

Bytes are modelled as `Nat` values `< 256`. -/

def b64StdAlphabet : List Char :=
  "ABCDEFGHIJKLMNOPQRSTUVWXYZabcdefghijklmnopqrstuvwxyz0123456789+/".data

def b64UrlAlphabet : List Char :=
  "ABCDEFGHIJKLMNOPQRSTUVWXYZabcdefghijklmnopqrstuvwxyz0123456789-_".data

/-- Sextet to URL-safe alphabet character. -/
def b64EncChar (n : Nat) : Char := b64UrlAlphabet.getD n 'A'

/-- Body of the URL-safe base64 encoding of a byte sequence (everything
except the `=` padding).  This is the reference encoder the round-trip
theorems quantify over; the repository itself only decodes. -/
def b64EncBody : List Nat → List Char
  | [] => []
  | [a] => [b64EncChar (a / 4), b64EncChar (a % 4 * 16)]
  | [a, b] => [b64EncChar (a / 4), b64EncChar (a % 4 * 16 + b / 16), b64EncChar (b % 16 * 4)]
  | a :: b :: c :: r =>
    b64EncChar (a / 4) :: b64EncChar (a % 4 * 16 + b / 16) ::
      b64EncChar (b % 16 * 4 + c / 64) :: b64EncChar (c % 64) :: b64EncBody r

/-- Number of `=` padding characters for a byte count. -/
def b64PadLen (n : Nat) : Nat := (3 - n % 3) % 3

/-- Fully padded URL-safe base64 encoding. -/
def b64urlEncode (bs : List Nat) : List Char :=
  b64EncBody bs ++ List.replicate (b64PadLen bs.length) '='

/-- `urlsafe_b64decode` first translates `-`→`+` and `_`→`/`. -/
def b64Translate (c : Char) : Char :=
  if c = '-' then '+' else if c = '_' then '/' else c

def isB64Char (c : Char) : Bool := b64StdAlphabet.contains c

def b64DecChar (c : Char) : Option Nat := b64StdAlphabet.findIdx? (fun d => d = c)

/-- Decode a run of data characters: full quads to three bytes each, a
trailing pair or triple to one or two bytes, a trailing single is an
error. -/
def b64DecQuads : List Char → Option (List Nat)
  | [] => some []
  | [_] => none
  | [c1, c2] => do
    let s1 ← b64DecChar c1
    let s2 ← b64DecChar c2
    pure [s1 * 4 + s2 / 16]
  | [c1, c2, c3] => do
    let s1 ← b64DecChar c1
    let s2 ← b64DecChar c2
    let s3 ← b64DecChar c3
    pure [s1 * 4 + s2 / 16, s2 % 16 * 16 + s3 / 4]
  | c1 :: c2 :: c3 :: c4 :: r => do
    let s1 ← b64DecChar c1
    let s2 ← b64DecChar c2
    let s3 ← b64DecChar c3
    let s4 ← b64DecChar c4
    let bs ← b64DecQuads r
    pure ((s1 * 4 + s2 / 16) :: (s2 % 16 * 16 + s3 / 4) :: (s3 % 4 * 64 + s4) :: bs)

/-- Model of `base64.urlsafe_b64decode` with CPython's default lenient
mode: translate the URL-safe alphabet, discard characters outside the
standard alphabet and `=`, stop at the padding; `binascii`'s padding rule
(checked against CPython): a trailing data run of length ≡ 1 (mod 4) is
always an error, one of length ≡ 2 needs `==` after it, one of length
≡ 3 needs `=`. -/
def pyB64Decode (s : List Char) : Except Unit (List Nat) :=
  let cs := (s.map b64Translate).filter (fun c => isB64Char c || c == '=')
  let data := cs.takeWhile (fun c => c != '=')
  let pads := ((cs.drop data.length).takeWhile (fun c => c == '=')).length
  let d := data.length % 4
  let ok : Bool :=
    d == 0 || (d == 2 && decide (2 ≤ pads)) || (d == 3 && decide (1 ≤ pads))
  if ok then
    match b64DecQuads data with
    | some bs => .ok bs
    | none => .error ()
  else .error ()

/-- U+FFFD, the replacement character used by `errors="replace"`. -/
def replChar : Char := '�'

/-- UTF-8 decoding with `errors="replace"`, one step per leading byte.
Continuation ranges follow the table CPython uses (no overlong forms, no
surrogates, nothing above U+10FFFF); an invalid sequence yields one
replacement character for its maximal valid prefix. -/
def utf8DecodeGo : Nat → List Nat → List Char
  | 0, _ => []
  | _, [] => []
  | f+1, b0 :: rest =>
    if b0 < 0x80 then Char.ofNat b0 :: utf8DecodeGo f rest
    else if 0xC2 ≤ b0 && b0 ≤ 0xDF then
      match rest with
      | [] => [replChar]
      | b1 :: rest2 =>
        if 0x80 ≤ b1 && b1 ≤ 0xBF then
          Char.ofNat ((b0 - 0xC0) * 64 + (b1 - 0x80)) :: utf8DecodeGo f rest2
        else replChar :: utf8DecodeGo f rest
    else if 0xE0 ≤ b0 && b0 ≤ 0xEF then
      let lo1 := if b0 = 0xE0 then 0xA0 else 0x80
      let hi1 := if b0 = 0xED then 0x9F else 0xBF
      match rest with
      | [] => [replChar]
      | b1 :: rest2 =>
        if lo1 ≤ b1 && b1 ≤ hi1 then
          match rest2 with
          | [] => [replChar]
          | b2 :: rest3 =>
            if 0x80 ≤ b2 && b2 ≤ 0xBF then
              Char.ofNat ((b0 - 0xE0) * 4096 + (b1 - 0x80) * 64 + (b2 - 0x80)) ::
                utf8DecodeGo f rest3
            else replChar :: utf8DecodeGo f rest2
        else replChar :: utf8DecodeGo f rest
    else if 0xF0 ≤ b0 && b0 ≤ 0xF4 then
      let lo1 := if b0 = 0xF0 then 0x90 else 0x80
      let hi1 := if b0 = 0xF4 then 0x8F else 0xBF
      match rest with
      | [] => [replChar]
      | b1 :: rest2 =>
        if lo1 ≤ b1 && b1 ≤ hi1 then
          match rest2 with
          | [] => [replChar]
          | b2 :: rest3 =>
            if 0x80 ≤ b2 && b2 ≤ 0xBF then
              match rest3 with
              | [] => [replChar]
              | b3 :: rest4 =>
                if 0x80 ≤ b3 && b3 ≤ 0xBF then
                  Char.ofNat ((b0 - 0xF0) * 262144 + (b1 - 0x80) * 4096 +
                      (b2 - 0x80) * 64 + (b3 - 0x80)) :: utf8DecodeGo f rest4
                else replChar :: utf8DecodeGo f rest3
            else replChar :: utf8DecodeGo f rest2
        else replChar :: utf8DecodeGo f rest
    else replChar :: utf8DecodeGo f rest

/-- `bytes.decode("utf-8", errors="replace")`. -/
def utf8DecodeReplace (bs : List Nat) : String :=
  String.mk (utf8DecodeGo bs.length bs)

/-! ## `src/email_parser.py` -/

/-- Uncaught Python exceptions that the embedded code can raise. -/
inductive PyErr where
  | reError          -- `re.error` escaping a call with no handler
  | attributeError   -- `None.strip()`
deriving Repr, DecidableEq

/-- `safe_b64_decode` (email_parser.py:12-34): pad to a multiple of four,
URL-safe-decode, UTF-8-decode with replacement; any decode exception is
caught and yields the empty string. -/
def safe_b64_decode (data : Option String) : String :=
  match data with
  | none => ""                               -- `if not data`
  | some d =>
    if d = "" then ""                        -- `if not data`
    else
      let padding := d.length % 4
      let d := if padding ≠ 0 then d ++ String.mk (List.replicate (4 - padding) '=') else d
      match pyB64Decode d.data with
      | .error _ => ""                       -- `except Exception`: logged, return ''
      | .ok bs => utf8DecodeReplace bs

/-- `strip_html` (email_parser.py:37-62): the four `re.sub` passes of the
source, with its exact pattern strings, then collapse whitespace and
strip. -/
def strip_html (html : Option String) : String :=
  match html with
  | none => ""
  | some h =>
    if h = "" then ""
    else
      -- 1. Remove script and style tags (case-insensitive, including content)
      let h := pySubPat noFlags "(?is)<(script|style).*?>.*?(</\\1>)" "" h
      -- 2. Replace structural tags with newlines
      let h := pySubPat noFlags "(?i)<br\\s*/?>" "\n" h
      let h := pySubPat noFlags "(?i)</p>" "\n" h
      -- 3. Remove all remaining HTML tags
      let t := pySubPat noFlags "<[^>]+>" "" h
      -- 4. Collapse whitespace runs into single spaces, then strip
      pyStripStr (pySubPat noFlags "\\s+" " " t)

/-- A node of the Gmail message payload tree.  `Option` distinguishes an
absent key from a present-but-empty value; `body.data` is flattened into
one optional field.  Headers are `{name, value}` pairs with both keys
optional. -/
inductive Payload where
  | mk (mimeType : Option String) (bodyData : Option String)
       (parts : List Payload) (headers : List (Option String × Option String))

def Payload.mime : Payload → Option String
  | .mk m _ _ _ => m

def Payload.dataOf : Payload → Option String
  | .mk _ d _ _ => d

def Payload.parts : Payload → List Payload
  | .mk _ _ p _ => p

def Payload.headers : Payload → List (Option String × Option String)
  | .mk _ _ _ h => h

/-- `if not payload:` — the payload dict is empty. -/
def Payload.isEmptyDict : Payload → Bool
  | .mk m d p h => m.isNone && d.isNone && p.isEmpty && h.isEmpty

/-- The `{}` default of `full_message.get("payload", {})`. -/
def emptyPayload : Payload := .mk none none [] []

mutual

/-- `extract_text_body` (email_parser.py:65-116).  The source's single
loop over `payload['parts']` becomes `etbLoop`; note that the loop
returns the FIRST part that fires any of its three checks, in document
order (a `text/html` part earlier in the list wins over a later
`text/plain` sibling). -/
def extract_text_body (payload : Payload) : String :=
  match payload with
  | .mk m d ps hs =>
    if (Payload.mk m d ps hs).isEmptyDict then ""
    else if m.getD "" = "text/plain" then
      -- payload itself is a text part: decode and return (even if empty)
      safe_b64_decode (some (d.getD ""))
    else
      match etbLoop ps with
      | some r => r
      | none =>
        -- Final attempt: the main body if it has data
        let data := d.getD ""
        if data ≠ "" then safe_b64_decode (some data) else ""

/-- The `for part in parts:` loop body of `extract_text_body`. -/
def etbLoop : List Payload → Option String
  | [] => none
  | part :: rest =>
    let p_mime := part.mime.getD ""
    let data := part.dataOf.getD ""
    -- Strategy 1: text/plain with data
    if p_mime = "text/plain" && data ≠ "" then some (safe_b64_decode (some data))
    -- Strategy 2: text/html with data
    else if p_mime = "text/html" && data ≠ "" then
      some (strip_html (some (safe_b64_decode (some data))))
    -- Strategy 3: recurse into nested parts
    else if !part.parts.isEmpty then
      let nested := extract_text_body part
      if nested ≠ "" then some nested else etbLoop rest
    else etbLoop rest

end

/-- `get_header` (email_parser.py:119-133). -/
def get_header (headers : List (Option String × Option String)) (name : String) : String :=
  match headers.find? (fun h => pyLower (h.1.getD "") = pyLower name) with
  | some h => h.2.getD ""
  | none => ""

/-! ## `src/parsing_tools.py` -/

/-- One entry of `config.PARSING_MAP`, with every key optional (the code
reads all of them with `dict.get`). -/
structure RuleInstr where
  output_field : Option String
  method : Option String
  header_name : Option String
  key_patterns : Option (List String)
  delimiter : Option String
  pattern : Option String
deriving Repr, DecidableEq

/-- The character class `[|\[\](){}.*+?]` of parsing_tools.py:32. -/
def codeDelimMeta : List Char := ['|', '[', ']', '(', ')', '{', '}', '.', '*', '+', '?']

/-- `str.startswith` over character lists (the core `String.startsWith`
is compiled by well-founded recursion and does not kernel-reduce). -/
def listStartsWith : List Char → List Char → Bool
  | _, [] => true
  | [], _ :: _ => false
  | a :: as, b :: bs => a = b && listStartsWith as bs

/-- The delimiter classification of `extract_key_value`
(parsing_tools.py:32-37): `raw_delimiter.startswith(r"\s*") or
re.search(r'[|\[\](){}.*+?]', raw_delimiter)` — a `re.search` of a
character class succeeds exactly when some character of the string is in
the class. -/
def delimiterRegexOf (raw : String) : String :=
  if listStartsWith raw.data "\\s*".data || raw.data.any (fun c => codeDelimMeta.contains c) then
    raw
  else pyReEscape raw

/-- `extract_key_value` (parsing_tools.py:8-61).  `re.search` is called
with no exception handler, so a delimiter fragment that makes the
combined pattern malformed raises `re.error` to the caller. -/
def extract_key_value (text : String) (config : RuleInstr) : Except PyErr String :=
  let key_patterns := config.key_patterns.getD []
  let raw_delimiter := config.delimiter.getD ":"
  let delimiter_regex := delimiterRegexOf raw_delimiter
  if text = "" || key_patterns = [] then .ok ""
  else
    -- `[re.escape(k.strip()) for k in key_patterns if k.strip()]`
    let escaped_patterns := key_patterns.filterMap (fun k =>
      if pyStripStr k = "" then none else some (pyReEscape (pyStripStr k)))
    if escaped_patterns = [] then .ok ""
    else
      let full_pattern := "(?:" ++ String.intercalate "|" escaped_patterns ++
        ")\\s*" ++ delimiter_regex ++ "\\s*(.*?)(?=\\n|$)"
      match compilePy full_pattern with
      | none => .error .reError
      | some (r, _, ifl) =>
        match reSearch (ifl.merge ⟨true, false⟩) r text.data with
        | none => .ok ""
        | some (_, _, env) =>
          match genvGet env 1 with
          | some g => .ok (String.mk (pyStrip g))
          | none => .error .attributeError

/-- `extract_regex_pattern` (parsing_tools.py:64-97).  Only `re.error` is
caught; a match whose first group did not participate makes
`match.group(1)` evaluate to `None` and `None.strip()` raise an
`AttributeError` that escapes. -/
def extract_regex_pattern (text : String) (config : RuleInstr) : Except PyErr String :=
  let pattern := config.pattern.getD ""
  if text = "" || pattern = "" then .ok ""
  else
    match compilePy pattern with
    | none => .ok ""                         -- `except re.error`: logged, fall through to ""
    | some (r, ngroups, ifl) =>
      match reSearch (ifl.merge ⟨true, true⟩) r text.data with
      | none => .ok ""
      | some (_, _, env) =>
        if ngroups ≠ 0 then                  -- `match.groups()` is a non-empty tuple
          match genvGet env 1 with
          | some g => .ok (String.mk (pyStrip g))
          | none => .error .attributeError
        else .ok ""

/-! ## `parse_email` (email_parser.py:136-207)

`config.PARSING_MAP` and `config.HIGH_PRIORITY_KEYWORDS` are process-wide
constants read by `parse_email`; the embedding passes them as parameters.
The result dictionary is an insertion-ordered association list with
unique keys, exactly a Python `dict`. -/

/-- The Gmail message object: the keys `parse_email` reads. -/
structure PyMsg where
  id : Option String
  threadId : Option String
  payload : Option Payload

/-- An insertion-ordered string dictionary (values may be Python `None`,
modelled as `none`). -/
abbrev PyDict := List (String × Option String)

/-- `d[k] = v`: overwrite in place if the key exists, else append. -/
def dictSet (m : PyDict) (k : String) (v : Option String) : PyDict :=
  if m.any (fun p => p.1 == k) then m.map (fun p => if p.1 == k then (k, v) else p)
  else m ++ [(k, v)]

/-- `d.get(k)`: `none` when the key is absent. -/
def dictGet (m : PyDict) (k : String) : Option (Option String) :=
  (m.find? (fun p => p.1 == k)).map (fun p => p.2)

/-- The `method` dispatch inside the rule loop. -/
def ruleExtract (headers : List (Option String × Option String)) (body : String)
    (instruction : RuleInstr) : Except PyErr String :=
  match instruction.method with
  | some "header" => .ok (get_header headers (instruction.header_name.getD ""))
  | some "key_value" => extract_key_value body instruction
  | some "regex_pattern" => extract_regex_pattern body instruction
  | _ => .ok ""                              -- unknown method: extracted_value stays ""

/-- Python truthiness of the optional `output_field` string. -/
def truthyStr (o : Option String) : Bool := !(o.getD "" == "")

/-- The `for instruction in config.PARSING_MAP:` loop.  A rule's field is
added only when both the extracted value and the output field name are
truthy. -/
def applyRules (headers : List (Option String × Option String)) (body : String) :
    List RuleInstr → PyDict → Except PyErr PyDict
  | [], parsed => .ok parsed
  | instruction :: rest, parsed => do
    let extracted_value ← ruleExtract headers body instruction
    let parsed :=
      if !(extracted_value == "") && truthyStr instruction.output_field then
        dictSet parsed (instruction.output_field.getD "") (some extracted_value)
      else parsed
    applyRules headers body rest parsed

/-- `re.search(rf"\b{re.escape(kw.lower())}\b", combined_content)` for one
keyword.  An escaped keyword wrapped in `\b..\b` always compiles, so the
`none` branch is unreachable (`kwPatternCompiles` below). -/
def kwSearchHigh (kw : String) (combined : String) : Bool :=
  match compilePy ("\\b" ++ pyReEscape (pyLower kw) ++ "\\b") with
  | none => false
  | some (r, _, ifl) => (reSearch (ifl.merge noFlags) r combined.data).isSome

/-- Python `str.split(',')` over character lists (the core
`String.splitOn` is compiled by well-founded recursion and does not
kernel-reduce).  `"".split(',') == [""]`, and empty pieces are kept. -/
def pySplitComma : List Char → List (List Char)
  | [] => [[]]
  | c :: rest =>
    if c = ',' then [] :: pySplitComma rest
    else
      match pySplitComma rest with
      | [] => [[c]]
      | g :: gs => (c :: g) :: gs

/-- `[kw.strip() for kw in config.HIGH_PRIORITY_KEYWORDS.split(',') if kw.strip()]`. -/
def priorityKeywordsOf (s : String) : List String :=
  (((pySplitComma s.data).map (fun g => pyStripStr (String.mk g)))).filter (fun kw => !(kw == ""))

/-- The priority-flagging loop: the first keyword that matches sets
`Priority` to `"High"` and breaks; no match leaves the dict unchanged. -/
def applyPriority (keywords : List String) (combined : String) (parsed : PyDict) : PyDict :=
  match keywords.find? (fun kw => kwSearchHigh kw combined) with
  | some _ => dictSet parsed "Priority" (some "High")
  | none => parsed

/-- `combined_content`: lowercase the subject/body/sender concatenation,
collapse whitespace runs, strip. -/
def combinedContentOf (subject body from_raw : String) : String :=
  pyStripStr (pySubPat noFlags "\\s+" " " (pyLower (subject ++ " " ++ body ++ " " ++ from_raw)))

/-- `headers = payload.get("headers", [])` with
`payload = full_message.get("payload", {})`. -/
def msgHeaders (msg : PyMsg) : List (Option String × Option String) :=
  (msg.payload.getD emptyPayload).headers

/-- `body = extract_text_body(payload)`. -/
def msgBody (msg : PyMsg) : String := extract_text_body (msg.payload.getD emptyPayload)

/-- `subject = get_header(headers, "Subject")`. -/
def msgSubject (msg : PyMsg) : String := get_header (msgHeaders msg) "Subject"

/-- `from_raw = get_header(headers, "From")`. -/
def msgFrom (msg : PyMsg) : String := get_header (msgHeaders msg) "From"

/-- `date = get_header(headers, "Date")`. -/
def msgDate (msg : PyMsg) : String := get_header (msgHeaders msg) "Date"

/-- The `combined_content` that the priority keywords are matched
against. -/
def msgCombined (msg : PyMsg) : String :=
  combinedContentOf (msgSubject msg) (msgBody msg) (msgFrom msg)

/-- The dict literal that seeds `parsed` with the seven standard
fields. -/
def seedDict (msg : PyMsg) : PyDict :=
  [("Message ID", msg.id),
   ("Thread ID", msg.threadId),
   ("Subject", some (msgSubject msg)),
   ("From", some (msgFrom msg)),
   ("Date", some (msgDate msg)),
   ("Body (plain)", some (msgBody msg)),
   ("Priority", some "Normal")]

/-- `parse_email` (email_parser.py:136-207): seed the standard fields,
run the rule loop, then the priority-flagging pass. -/
def parse_email (full_message : PyMsg) (parsingMap : List RuleInstr)
    (highPriorityKeywords : String) : Except PyErr PyDict := do
  let parsed ← applyRules (msgHeaders full_message) (msgBody full_message)
      parsingMap (seedDict full_message)
  pure (applyPriority (priorityKeywordsOf highPriorityKeywords)
      (msgCombined full_message) parsed)

/-- The seven standard fields of the result mapping. -/
def standardFields : List String :=
  ["Message ID", "Thread ID", "Subject", "From", "Date", "Body (plain)", "Priority"]

/-! ## Dictionary lemmas -/

theorem find?_map_set_eq (m : PyDict) (k : String) (v : Option String)
    (h : m.any (fun p => p.1 == k) = true) :
    (m.map (fun p => if p.1 == k then (k, v) else p)).find? (fun p => p.1 == k) = some (k, v) := by
  induction m with
  | nil => simp at h
  | cons a t ih =>
    by_cases hk : a.1 = k
    · rw [List.map_cons, if_pos (beq_iff_eq.mpr hk)]
      exact List.find?_cons_of_pos _ (beq_self_eq_true k)
    · have hk' : (a.1 == k) = false := beq_false_of_ne hk
      rw [List.map_cons, if_neg (by simp [hk'])]
      rw [List.find?_cons_of_neg _ (by simp [hk'])]
      refine ih ?_
      simpa [hk'] using h

theorem find?_map_set_ne (m : PyDict) (k k' : String) (v : Option String) (h : k' ≠ k) :
    (m.map (fun p => if p.1 == k then (k, v) else p)).find? (fun p => p.1 == k') =
      m.find? (fun p => p.1 == k') := by
  induction m with
  | nil => rfl
  | cons a t ih =>
    by_cases hk : a.1 = k
    · rw [List.map_cons, if_pos (beq_iff_eq.mpr hk)]
      have h1 : ((k, v).1 == k') = false := beq_false_of_ne (fun hh => h hh.symm)
      have h2 : (a.1 == k') = false := by rw [hk]; exact beq_false_of_ne (fun hh => h hh.symm)
      rw [List.find?_cons_of_neg _ (by simp [h1]), List.find?_cons_of_neg _ (by simp [h2]), ih]
    · rw [List.map_cons, if_neg (by simp [beq_false_of_ne hk])]
      by_cases hk2 : a.1 = k'
      · have hb : (a.1 == k') = true := beq_iff_eq.mpr hk2
        simp [List.find?, hb]
      · have hb : (a.1 == k') = false := beq_false_of_ne hk2
        have step : ∀ L : PyDict, List.find? (fun p => p.1 == k') (a :: L) =
            List.find? (fun p => p.1 == k') L := by
          intro L
          simp only [List.find?, hb]
        rw [step, step, ih]

theorem dictGet_dictSet_self (m : PyDict) (k : String) (v : Option String) :
    dictGet (dictSet m k v) k = some v := by
  unfold dictGet dictSet
  by_cases h : m.any (fun p => p.1 == k) = true
  · simp only [h, if_true, find?_map_set_eq m k v h, Option.map_some']
  · have h' : m.any (fun p => p.1 == k) = false := by
      cases hx : m.any (fun p => p.1 == k) with
      | true => exact absurd hx h
      | false => rfl
    have hnone : m.find? (fun p => p.1 == k) = none := by
      rw [List.find?_eq_none]
      intro x hx hpx
      exact absurd hpx (by simpa using List.any_eq_false.mp h' x hx)
    simp only [h', Bool.false_eq_true, if_false, List.find?_append, hnone, Option.none_or]
    simp [List.find?]

theorem dictGet_dictSet_ne (m : PyDict) (k k' : String) (v : Option String) (h : k' ≠ k) :
    dictGet (dictSet m k v) k' = dictGet m k' := by
  unfold dictGet dictSet
  by_cases hany : m.any (fun p => p.1 == k) = true
  · simp only [hany, if_true, find?_map_set_ne m k k' v h]
  · have h' : m.any (fun p => p.1 == k) = false := by
      cases hx : m.any (fun p => p.1 == k) with
      | true => exact absurd hx hany
      | false => rfl
    have h1 : (((k, v)).1 == k') = false := beq_false_of_ne (fun hh => h hh.symm)
    simp only [h', Bool.false_eq_true, if_false, List.find?_append]
    rw [List.find?_cons_of_neg _ (by simp [h1])]
    simp [List.find?]

theorem dictGet_isSome_dictSet (m : PyDict) (k k' : String) (v : Option String) :
    (dictGet (dictSet m k v) k').isSome = true ↔ (dictGet m k').isSome = true ∨ k' = k := by
  by_cases hk : k' = k
  · subst hk
    simp [dictGet_dictSet_self]
  · rw [dictGet_dictSet_ne m k k' v hk]
    simp [hk]

/-! ## Rule-application lemmas -/

theorem truthyStr_iff (o : Option String) :
    truthyStr o = true ↔ ∃ s, o = some s ∧ s ≠ "" := by
  cases o with
  | none => simp [truthyStr]
  | some s =>
    simp only [truthyStr, Option.getD_some]
    constructor
    · intro h
      refine ⟨s, rfl, ?_⟩
      intro hs
      subst hs
      simp at h
    · rintro ⟨t, ht, hne⟩
      cases ht
      simpa using hne

theorem dictGet_isSome_iff_mem_keys (L : PyDict) (f : String) :
    (dictGet L f).isSome = true ↔ f ∈ L.map Prod.fst := by
  induction L with
  | nil => simp [dictGet]
  | cons a t ih =>
    by_cases hf : a.1 = f
    · have hb : (a.1 == f) = true := beq_iff_eq.mpr hf
      simp [dictGet, List.find?, hb, hf.symm]
    · have hb : (a.1 == f) = false := beq_false_of_ne hf
      simp only [dictGet, List.find?, hb] at ih ⊢
      simp only [List.map_cons, List.mem_cons, ih]
      constructor
      · exact Or.inr
      · rintro (h | h)
        · exact absurd h.symm hf
        · exact h

theorem applyRules_error_ne_ok (hs : List (Option String × Option String)) (b : String)
    (rules : List RuleInstr) (parsed : PyDict) (i : RuleInstr) (e : PyErr) (m : PyDict)
    (hr : ruleExtract hs b i = .error e) :
    applyRules hs b (i :: rules) parsed ≠ .ok m := by
  intro h
  simp only [applyRules, hr, Except.bind] at h
  cases h

theorem applyRules_cons_ok (hs : List (Option String × Option String)) (b : String)
    (rules : List RuleInstr) (parsed : PyDict) (i : RuleInstr) (v : String)
    (hr : ruleExtract hs b i = .ok v) :
    applyRules hs b (i :: rules) parsed =
      applyRules hs b rules
        (if !(v == "") && truthyStr i.output_field then
          dictSet parsed (i.output_field.getD "") (some v)
        else parsed) := by
  simp only [applyRules, hr]
  rfl

theorem applyRules_get_ne (hs : List (Option String × Option String)) (b : String)
    (rules : List RuleInstr) (k : String) :
    ∀ parsed m, (∀ rule ∈ rules, rule.output_field ≠ some k) →
      applyRules hs b rules parsed = .ok m → dictGet m k = dictGet parsed k := by
  induction rules with
  | nil =>
    intro parsed m _ h
    cases h
    rfl
  | cons i t ih =>
    intro parsed m hyp h
    cases hr : ruleExtract hs b i with
    | error e => exact absurd h (applyRules_error_ne_ok hs b t parsed i e m hr)
    | ok v =>
      rw [applyRules_cons_ok hs b t parsed i v hr] at h
      have hrec := ih _ m (fun r hr => hyp r (List.mem_cons_of_mem i hr)) h
      rw [hrec]
      by_cases hc : (!(v == "") && truthyStr i.output_field) = true
      · rw [if_pos hc]
        obtain ⟨s, hofs, hs0⟩ := (truthyStr_iff i.output_field).mp (by
          have hc2 := hc
          simp only [Bool.and_eq_true] at hc2
          exact hc2.2)
        have hkey : i.output_field.getD "" = s := by rw [hofs]; rfl
        have hks : k ≠ s := by
          intro hk
          exact hyp i (List.mem_cons_self i t) (by rw [hofs, hk])
        rw [hkey, dictGet_dictSet_ne parsed s k (some v) hks]
      · rw [if_neg hc]

theorem applyPriority_get_ne (kws : List String) (c : String) (parsed : PyDict)
    (k : String) (hk : k ≠ "Priority") :
    dictGet (applyPriority kws c parsed) k = dictGet parsed k := by
  unfold applyPriority
  cases kws.find? (fun kw => kwSearchHigh kw c) with
  | none => rfl
  | some kw => exact dictGet_dictSet_ne parsed "Priority" k (some "High") hk

theorem applyPriority_hit (kws : List String) (c : String) (parsed : PyDict)
    (h : (kws.find? (fun kw => kwSearchHigh kw c)).isSome = true) :
    dictGet (applyPriority kws c parsed) "Priority" = some (some "High") := by
  unfold applyPriority
  cases hf : kws.find? (fun kw => kwSearchHigh kw c) with
  | none => rw [hf] at h; cases h
  | some kw => exact dictGet_dictSet_self parsed "Priority" (some "High")

theorem applyPriority_miss (kws : List String) (c : String) (parsed : PyDict)
    (h : kws.find? (fun kw => kwSearchHigh kw c) = none) :
    applyPriority kws c parsed = parsed := by
  unfold applyPriority
  rw [h]

theorem applyPriority_isSome_mono (kws : List String) (c : String) (parsed : PyDict)
    (f : String) (h : (dictGet parsed f).isSome = true) :
    (dictGet (applyPriority kws c parsed) f).isSome = true := by
  unfold applyPriority
  cases kws.find? (fun kw => kwSearchHigh kw c) with
  | none => exact h
  | some kw =>
    exact (dictGet_isSome_dictSet parsed "Priority" f (some "High")).mpr (Or.inl h)

theorem applyRules_key_iff (hs : List (Option String × Option String)) (b : String)
    (rules : List RuleInstr) :
    ∀ parsed m, applyRules hs b rules parsed = .ok m →
      ∀ f, ((dictGet m f).isSome = true ↔
        (dictGet parsed f).isSome = true ∨
          ∃ rule, rule ∈ rules ∧ rule.output_field = some f ∧ f ≠ "" ∧
            ∃ v, ruleExtract hs b rule = .ok v ∧ v ≠ "") := by
  induction rules with
  | nil =>
    intro parsed m h f
    cases h
    simp
  | cons i t ih =>
    intro parsed m h f
    cases hr : ruleExtract hs b i with
    | error e => exact absurd h (applyRules_error_ne_ok hs b t parsed i e m hr)
    | ok v =>
      rw [applyRules_cons_ok hs b t parsed i v hr] at h
      by_cases hc : (!(v == "") && truthyStr i.output_field) = true
      · rw [if_pos hc] at h
        rw [ih _ m h f, dictGet_isSome_dictSet]
        have hband := hc
        simp only [Bool.and_eq_true] at hband
        obtain ⟨s, hofs, hs0⟩ := (truthyStr_iff _).mp hband.2
        have hv0 : v ≠ "" := by
          intro hv
          rw [hv] at hband
          simp at hband
        have hkey : i.output_field.getD "" = s := by rw [hofs]; rfl
        rw [hkey]
        constructor
        · rintro ((hp | hfs) | ⟨rule, hmem, hP⟩)
          · exact Or.inl hp
          · exact Or.inr ⟨i, List.mem_cons_self i t, by rw [hofs, hfs],
              by rw [hfs]; exact hs0, v, hr, hv0⟩
          · exact Or.inr ⟨rule, List.mem_cons_of_mem i hmem, hP⟩
        · rintro (hp | ⟨rule, hmem, hof, hf0, w, hw, hw0⟩)
          · exact Or.inl (Or.inl hp)
          · rcases List.mem_cons.mp hmem with hri | hrt
            · subst hri
              left; right
              rw [hofs] at hof
              exact (Option.some_inj.mp hof).symm
            · exact Or.inr ⟨rule, hrt, hof, hf0, w, hw, hw0⟩
      · rw [if_neg hc] at h
        rw [ih _ m h f]
        constructor
        · rintro (hp | ⟨rule, hmem, hP⟩)
          · exact Or.inl hp
          · exact Or.inr ⟨rule, List.mem_cons_of_mem i hmem, hP⟩
        · rintro (hp | ⟨rule, hmem, hof, hf0, w, hw, hw0⟩)
          · exact Or.inl hp
          · rcases List.mem_cons.mp hmem with hri | hrt
            · subst hri
              exfalso
              rw [hr] at hw
              injection hw with hvw
              subst hvw
              refine hc ?_
              rw [Bool.and_eq_true]
              refine ⟨by simpa using hw0, (truthyStr_iff _).mpr ⟨f, hof, hf0⟩⟩
            · exact Or.inr ⟨rule, hrt, hof, hf0, w, hw, hw0⟩

/-! ## Leftmost-match lemmas for `re.search` -/

theorem searchIdxs_some_spec (fl : RFlags) (r : Rx) (text : List Char) :
    ∀ (l : List Nat) (i : Nat) (m : List Char) (env : GEnv),
      l.Pairwise (· < ·) →
      searchIdxs fl r text l = some (i, m, env) →
      i ∈ l ∧ matchAt fl r text i = some (m, env) ∧
        ∀ j ∈ l, j < i → matchAt fl r text j = none := by
  intro l
  induction l with
  | nil =>
    intro i m env _ h
    cases h
  | cons x xs ih =>
    intro i m env hp h
    rcases List.pairwise_cons.mp hp with ⟨hlt, hp'⟩
    cases hmx : matchAt fl r text x with
    | some p =>
      obtain ⟨pm, penv⟩ := p
      simp only [searchIdxs, hmx] at h
      obtain ⟨h1, h2, h3⟩ : x = i ∧ pm = m ∧ penv = env := by
        injection h with h'
        exact ⟨congrArg Prod.fst h', congrArg Prod.fst (congrArg Prod.snd h'),
          congrArg Prod.snd (congrArg Prod.snd h')⟩
      subst h1; subst h2; subst h3
      refine ⟨List.mem_cons_self x xs, hmx, ?_⟩
      intro j hj hji
      rcases List.mem_cons.mp hj with hjx | hjxs
      · omega
      · exact absurd hji (by have := hlt j hjxs; omega)
    | none =>
      simp only [searchIdxs, hmx] at h
      obtain ⟨hmem, hm, hall⟩ := ih i m env hp' h
      refine ⟨List.mem_cons_of_mem x hmem, hm, ?_⟩
      intro j hj hji
      rcases List.mem_cons.mp hj with hjx | hjxs
      · rw [hjx]; exact hmx
      · exact hall j hjxs hji

theorem searchIdxs_none_spec (fl : RFlags) (r : Rx) (text : List Char) :
    ∀ (l : List Nat), searchIdxs fl r text l = none →
      ∀ j ∈ l, matchAt fl r text j = none := by
  intro l
  induction l with
  | nil => intro _ j hj; cases hj
  | cons x xs ih =>
    intro h j hj
    cases hmx : matchAt fl r text x with
    | some p =>
      obtain ⟨pm, penv⟩ := p
      simp only [searchIdxs, hmx] at h
      cases h
    | none =>
      simp only [searchIdxs, hmx] at h
      rcases List.mem_cons.mp hj with hjx | hjxs
      · rw [hjx]; exact hmx
      · exact ih h j hjxs

/-- `re.search` returns the leftmost match: a match at the reported
position, and no match at any earlier position. -/
theorem reSearch_leftmost (fl : RFlags) (r : Rx) (text : List Char)
    (i : Nat) (m : List Char) (env : GEnv)
    (h : reSearch fl r text = some (i, m, env)) :
    i ≤ text.length ∧ matchAt fl r text i = some (m, env) ∧
      ∀ j, j < i → matchAt fl r text j = none := by
  obtain ⟨hmem, hm, hall⟩ := searchIdxs_some_spec fl r text _ i m env
    (List.pairwise_lt_range _) h
  refine ⟨by have := List.mem_range.mp hmem; omega, hm, ?_⟩
  intro j hj
  have hjm : j ∈ List.range (text.length + 1) := by
    rw [List.mem_range]
    have := List.mem_range.mp hmem
    omega
  exact hall j hjm hj

/-- When `re.search` fails there is no match at any position. -/
theorem reSearch_none (fl : RFlags) (r : Rx) (text : List Char)
    (h : reSearch fl r text = none) :
    ∀ j, j ≤ text.length → matchAt fl r text j = none := by
  intro j hj
  exact searchIdxs_none_spec fl r text _ h j (List.mem_range.mpr (by omega))

/-! ## base64 round-trip -/

theorem b64_char_roundtrip : ∀ n, n < 64 → b64DecChar (b64Translate (b64EncChar n)) = some n := by
  decide

theorem b64_char_keep :
    ∀ n, n < 64 → (isB64Char (b64Translate (b64EncChar n)) || (b64Translate (b64EncChar n) == '=')) = true := by
  decide

theorem b64_char_ne_pad : ∀ n, n < 64 → (b64Translate (b64EncChar n) != '=') = true := by
  decide

theorem takeWhile_all_append (p : Char → Bool) (xs ys : List Char)
    (h : ∀ x ∈ xs, p x = true) : (xs ++ ys).takeWhile p = xs ++ ys.takeWhile p := by
  induction xs with
  | nil => simp
  | cons a t ih =>
    have ha : p a = true := h a (List.mem_cons_self a t)
    simp only [List.cons_append, List.takeWhile_cons, ha, if_true]
    rw [ih (fun x hx => h x (List.mem_cons_of_mem a hx))]

theorem takeWhile_all (p : Char → Bool) (xs : List Char)
    (h : ∀ x ∈ xs, p x = true) : xs.takeWhile p = xs := by
  have := takeWhile_all_append p xs [] h
  simpa using this

theorem filter_all (p : Char → Bool) (xs : List Char)
    (h : ∀ x ∈ xs, p x = true) : xs.filter p = xs :=
  List.filter_eq_self.mpr h

theorem b64EncBody_chars :
    ∀ bs : List Nat, (∀ b ∈ bs, b < 256) →
      ∀ c ∈ b64EncBody bs, ∃ n, n < 64 ∧ c = b64EncChar n := by
  intro bs
  induction bs using b64EncBody.induct with
  | case1 =>
    intro _ c hc
    cases hc
  | case2 a =>
    intro h c hc
    have ha := h a (by simp)
    simp only [b64EncBody, List.mem_cons, List.not_mem_nil, or_false] at hc
    rcases hc with hc | hc
    · exact ⟨a / 4, by omega, hc⟩
    · exact ⟨a % 4 * 16, by omega, hc⟩
  | case3 a b =>
    intro h c hc
    have ha := h a (by simp)
    have hb := h b (by simp)
    simp only [b64EncBody, List.mem_cons, List.not_mem_nil, or_false] at hc
    rcases hc with hc | hc | hc
    · exact ⟨a / 4, by omega, hc⟩
    · exact ⟨a % 4 * 16 + b / 16, by omega, hc⟩
    · exact ⟨b % 16 * 4, by omega, hc⟩
  | case4 a b c r ih =>
    intro h x hx
    have ha := h a (by simp)
    have hb := h b (by simp)
    have hcc := h c (by simp)
    simp only [b64EncBody, List.mem_cons] at hx
    rcases hx with hx | hx | hx | hx | hx
    · exact ⟨a / 4, by omega, hx⟩
    · exact ⟨a % 4 * 16 + b / 16, by omega, hx⟩
    · exact ⟨b % 16 * 4 + c / 64, by omega, hx⟩
    · exact ⟨c % 64, by omega, hx⟩
    · exact ih (fun y hy => h y (by simp [hy])) x hx

theorem b64EncBody_len (bs : List Nat) :
    ((b64EncBody bs).length + b64PadLen bs.length) % 4 = 0 := by
  induction bs using b64EncBody.induct with
  | case1 => rfl
  | case2 a => simp [b64EncBody, b64PadLen]
  | case3 a b => simp [b64EncBody, b64PadLen]
  | case4 a b c r ih =>
    have h1 : (b64EncBody (a :: b :: c :: r)).length = (b64EncBody r).length + 4 := by
      simp [b64EncBody]
    have h2 : b64PadLen (a :: b :: c :: r).length = b64PadLen r.length := by
      simp only [b64PadLen, List.length_cons]
      omega
    rw [h1, h2]
    omega

theorem b64PadLen_lt (n : Nat) : b64PadLen n < 4 := by
  unfold b64PadLen
  omega

theorem b64DecQuads_enc :
    ∀ bs : List Nat, (∀ b ∈ bs, b < 256) →
      b64DecQuads ((b64EncBody bs).map b64Translate) = some bs := by
  intro bs
  induction bs using b64EncBody.induct with
  | case1 => intro _; rfl
  | case2 a =>
    intro h
    have ha := h a (by simp)
    simp only [b64EncBody, List.map_cons, List.map_nil, b64DecQuads]
    rw [b64_char_roundtrip (a / 4) (by omega), b64_char_roundtrip (a % 4 * 16) (by omega)]
    simp only [Option.bind_some, Option.some_bind, Option.pure_def, Option.bind_eq_bind]
    have hv : a / 4 * 4 + a % 4 * 16 / 16 = a := by omega
    rw [hv]
  | case3 a b =>
    intro h
    have ha := h a (by simp)
    have hb := h b (by simp)
    simp only [b64EncBody, List.map_cons, List.map_nil, b64DecQuads]
    rw [b64_char_roundtrip (a / 4) (by omega),
        b64_char_roundtrip (a % 4 * 16 + b / 16) (by omega),
        b64_char_roundtrip (b % 16 * 4) (by omega)]
    simp only [Option.bind_some, Option.some_bind, Option.pure_def, Option.bind_eq_bind]
    have hv1 : a / 4 * 4 + (a % 4 * 16 + b / 16) / 16 = a := by omega
    have hv2 : (a % 4 * 16 + b / 16) % 16 * 16 + b % 16 * 4 / 4 = b := by omega
    rw [hv1, hv2]
  | case4 a b c r ih =>
    intro h
    have ha := h a (by simp)
    have hb := h b (by simp)
    have hcc := h c (by simp)
    have hr := ih (fun y hy => h y (by simp [hy]))
    simp only [b64EncBody, List.map_cons, b64DecQuads]
    rw [b64_char_roundtrip (a / 4) (by omega),
        b64_char_roundtrip (a % 4 * 16 + b / 16) (by omega),
        b64_char_roundtrip (b % 16 * 4 + c / 64) (by omega),
        b64_char_roundtrip (c % 64) (by omega), hr]
    simp only [Option.bind_some, Option.some_bind, Option.pure_def, Option.bind_eq_bind]
    have hv1 : a / 4 * 4 + (a % 4 * 16 + b / 16) / 16 = a := by omega
    have hv2 : (a % 4 * 16 + b / 16) % 16 * 16 + (b % 16 * 4 + c / 64) / 4 = b := by omega
    have hv3 : (b % 16 * 4 + c / 64) % 4 * 64 + c % 64 = c := by omega
    rw [hv1, hv2, hv3]

theorem b64PadLen_lt3 (n : Nat) : b64PadLen n < 3 := by
  unfold b64PadLen
  omega

theorem takeWhile_replicate_pad (k : Nat) :
    (List.replicate k '=').takeWhile (fun c => c != '=') = [] := by
  cases k with
  | zero => rfl
  | succ k => simp [List.replicate_succ, List.takeWhile_cons]

theorem pyB64Decode_encode (bs : List Nat) (h : ∀ b ∈ bs, b < 256) :
    pyB64Decode (b64EncBody bs ++ List.replicate (b64PadLen bs.length) '=') = .ok bs := by
  have hchars := b64EncBody_chars bs h
  have hkeep : ∀ c ∈ (b64EncBody bs).map b64Translate,
      (isB64Char c || (c == '=')) = true := by
    intro c hc
    obtain ⟨x, hx, hxc⟩ := List.mem_map.mp hc
    obtain ⟨n, hn, hxn⟩ := hchars x hx
    rw [← hxc, hxn]
    exact b64_char_keep n hn
  have hne : ∀ c ∈ (b64EncBody bs).map b64Translate, (c != '=') = true := by
    intro c hc
    obtain ⟨x, hx, hxc⟩ := List.mem_map.mp hc
    obtain ⟨n, hn, hxn⟩ := hchars x hx
    rw [← hxc, hxn]
    exact b64_char_ne_pad n hn
  have hpadmap : (List.replicate (b64PadLen bs.length) '=').map b64Translate =
      List.replicate (b64PadLen bs.length) '=' := by
    rw [List.map_replicate]
    congr 1
  have hpadkeep : ∀ c ∈ List.replicate (b64PadLen bs.length) '=',
      (isB64Char c || (c == '=')) = true := by
    intro c hc
    rw [List.eq_of_mem_replicate hc]
    decide
  have hcs : ((b64EncBody bs ++ List.replicate (b64PadLen bs.length) '=').map
        b64Translate).filter (fun c => isB64Char c || c == '=') =
      (b64EncBody bs).map b64Translate ++ List.replicate (b64PadLen bs.length) '=' := by
    rw [List.map_append, hpadmap, List.filter_append,
        filter_all _ _ hkeep, filter_all _ _ hpadkeep]
  have hdata : ((b64EncBody bs).map b64Translate ++
        List.replicate (b64PadLen bs.length) '=').takeWhile (fun c => c != '=') =
      (b64EncBody bs).map b64Translate := by
    rw [takeWhile_all_append _ _ _ hne, takeWhile_replicate_pad, List.append_nil]
  have hlen : ((b64EncBody bs).map b64Translate).length = (b64EncBody bs).length :=
    List.length_map _ _
  have hdrop : ((b64EncBody bs).map b64Translate ++
        List.replicate (b64PadLen bs.length) '=').drop
          ((b64EncBody bs).map b64Translate).length =
      List.replicate (b64PadLen bs.length) '=' := List.drop_left _ _
  have hpads : ((List.replicate (b64PadLen bs.length) '=').takeWhile
        (fun c => c == '=')).length = b64PadLen bs.length := by
    rw [takeWhile_all _ _ (by
      intro c hc
      rw [List.eq_of_mem_replicate hc]
      decide)]
    exact List.length_replicate _ _
  have hmod := b64EncBody_len bs
  have hklt := b64PadLen_lt3 bs.length
  simp only [pyB64Decode]
  rw [hcs, hdata, hdrop, hpads, hlen]
  have hok : ((b64EncBody bs).length % 4 == 0 ||
      ((b64EncBody bs).length % 4 == 2 && decide (2 ≤ b64PadLen bs.length)) ||
      ((b64EncBody bs).length % 4 == 3 && decide (1 ≤ b64PadLen bs.length))) = true := by
    have hk : b64PadLen bs.length = 0 ∨ b64PadLen bs.length = 1 ∨
        b64PadLen bs.length = 2 := by omega
    rcases hk with hk | hk | hk
    · have hd : (b64EncBody bs).length % 4 = 0 := by omega
      simp [hd]
    · have hd : (b64EncBody bs).length % 4 = 3 := by omega
      simp [hd, hk]
    · have hd : (b64EncBody bs).length % 4 = 2 := by omega
      simp [hd, hk]
  rw [hok]
  simp only [if_true]
  rw [b64DecQuads_enc bs h]

theorem b64EncBody_ne_nil (bs : List Nat) (h : bs ≠ []) : b64EncBody bs ≠ [] := by
  cases bs with
  | nil => exact absurd rfl h
  | cons a t =>
    cases t with
    | nil => simp [b64EncBody]
    | cons b t2 =>
      cases t2 with
      | nil => simp [b64EncBody]
      | cons c r => simp [b64EncBody]

theorem string_mk_append (a b : List Char) :
    String.mk a ++ String.mk b = String.mk (a ++ b) := rfl

theorem pyB64Decode_urlEncode (bs : List Nat) (h : ∀ b ∈ bs, b < 256) :
    pyB64Decode (b64urlEncode bs) = .ok bs := pyB64Decode_encode bs h

/-- `safe_b64_decode` on a fully padded URL-safe encoding. -/
theorem safe_b64_decode_padded (bs : List Nat) (h : ∀ b ∈ bs, b < 256) :
    safe_b64_decode (some (String.mk (b64urlEncode bs))) = utf8DecodeReplace bs := by
  by_cases hnil : bs = []
  · subst hnil
    rfl
  · have hbody := b64EncBody_ne_nil bs hnil
    have hne : b64urlEncode bs ≠ [] := by
      unfold b64urlEncode
      intro hh
      exact hbody (List.append_eq_nil.mp hh).1
    have hmod := b64EncBody_len bs
    have hlen : (String.mk (b64urlEncode bs)).length % 4 = 0 := by
      show (b64urlEncode bs).length % 4 = 0
      unfold b64urlEncode
      rw [List.length_append, List.length_replicate]
      exact hmod
    have hne' : ¬(String.mk (b64urlEncode bs) = "") := by
      intro hh
      exact hne (congrArg String.data hh)
    simp only [safe_b64_decode]
    rw [if_neg hne']
    simp only [hlen, ne_eq, not_true_eq_false, if_false]
    rw [pyB64Decode_urlEncode bs h]

/-- `safe_b64_decode` on an encoding with the `=` padding stripped: the
function re-pads it to a multiple of four and decodes the same bytes. -/
theorem safe_b64_decode_unpadded (bs : List Nat) (h : ∀ b ∈ bs, b < 256) :
    safe_b64_decode (some (String.mk (b64EncBody bs))) = utf8DecodeReplace bs := by
  by_cases hnil : bs = []
  · subst hnil
    rfl
  · have hbody := b64EncBody_ne_nil bs hnil
    have hmod := b64EncBody_len bs
    have hklt := b64PadLen_lt3 bs.length
    have hslen : (String.mk (b64EncBody bs)).length = (b64EncBody bs).length := rfl
    have hbody' : ¬(String.mk (b64EncBody bs) = "") := by
      intro hh
      exact hbody (congrArg String.data hh)
    simp only [safe_b64_decode]
    rw [if_neg hbody']
    by_cases hp : (String.mk (b64EncBody bs)).length % 4 = 0
    · have hk0 : b64PadLen bs.length = 0 := by
        rw [hslen] at hp
        omega
      simp only [hp, ne_eq, not_true_eq_false, if_false]
      have hdec : pyB64Decode (b64EncBody bs) = .ok bs := by
        have h2 := pyB64Decode_urlEncode bs h
        unfold b64urlEncode at h2
        rw [hk0] at h2
        simpa using h2
      rw [hdec]
    · simp only [hp, ne_eq, not_false_eq_true, if_true]
      have hkeq : 4 - (String.mk (b64EncBody bs)).length % 4 = b64PadLen bs.length := by
        rw [hslen]
        omega
      rw [hkeq, string_mk_append]
      rw [pyB64Decode_encode bs h]

/-- Whatever the input, `safe_b64_decode` returns either the empty string
or the replacement-decoding of some byte sequence — never an exception. -/
theorem safe_b64_decode_total (s : String) :
    safe_b64_decode (some s) = "" ∨
      ∃ bs : List Nat, safe_b64_decode (some s) = utf8DecodeReplace bs := by
  simp only [safe_b64_decode]
  by_cases hs : s = ""
  · rw [if_pos hs]
    exact Or.inl rfl
  · rw [if_neg hs]
    by_cases hp : s.length % 4 ≠ 0
    · rw [if_pos hp]
      cases hd : pyB64Decode (s ++ String.mk (List.replicate (4 - s.length % 4) '=')).data with
      | error e => exact Or.inl rfl
      | ok bs => exact Or.inr ⟨bs, rfl⟩
    · rw [if_neg hp]
      cases hd : pyB64Decode s.data with
      | error e => exact Or.inl rfl
      | ok bs => exact Or.inr ⟨bs, rfl⟩

/-! ## Claim theorems -/

/-- **C1** (code_bug): the claim — and `extract_text_body`'s own
docstring ("Prioritizes: 1. text/plain … 2. text/html") and its loop
comment ("Strategy 2: If no plaintext, fallback to text/html") — say the
decoded `text/plain` sibling wins regardless of order.  The single-pass
loop instead returns the FIRST part that fires: with the `text/html`
part (`"<b>Rich</b>"`, base64 `PGI-UmljaDwvYj4=`) before the
`text/plain` part (`"Plain"`, base64 `UGxhaW4=`), the code returns the
stripped HTML `"Rich"` even though a plaintext sibling with content
exists.  With the siblings in the other order it returns `"Plain"`. -/
theorem claim_C1_plaintext_priority_violated :
    extract_text_body (Payload.mk (some "multipart/alternative") none
      [Payload.mk (some "text/html") (some "PGI-UmljaDwvYj4=") [] [],
       Payload.mk (some "text/plain") (some "UGxhaW4=") [] []] []) = "Rich" ∧
    safe_b64_decode (some "UGxhaW4=") = "Plain" ∧
    extract_text_body (Payload.mk (some "multipart/alternative") none
      [Payload.mk (some "text/plain") (some "UGxhaW4=") [] [],
       Payload.mk (some "text/html") (some "PGI-UmljaDwvYj4=") [] []] []) = "Plain" :=
  ⟨rfl, rfl, rfl⟩

/-- **C2** (code_bug): on text `"b"` and rule pattern `"(a)?b"` the
pattern matches, `match.groups()` is the truthy tuple `(None,)`, and
`match.group(1).strip()` raises `AttributeError` (`None` has no `strip`),
which the `except re.error` handler does not catch: the exception
escapes `extract_regex_pattern`, contradicting the spec's "no exception
from this core should propagate to a caller under any input shape". -/
theorem claim_C2_attributeerror_escapes :
    extract_regex_pattern "b" ⟨none, none, none, none, none, some "(a)?b"⟩ =
      .error .attributeError ∧
    (extract_regex_pattern "b"
      ⟨none, none, none, none, none, some "(a)?b"⟩).toOption = none :=
  ⟨rfl, rfl⟩

/-- **C3** (counterexample): the claim says that whenever the pattern
matches and has at least one capture group, a (trimmed) string is
returned.  On text `"xb"` and pattern `"(q)?b"` the pattern matches at
position 1 with one capture group, but group 1 did not participate, so
the code raises `AttributeError` instead of returning any string. -/
theorem claim_C3_counterexample :
    extract_regex_pattern "xb" ⟨none, none, none, none, none, some "(q)?b"⟩ =
      .error .attributeError ∧
    (extract_regex_pattern "xb"
      ⟨none, none, none, none, none, some "(q)?b"⟩).toOption = none :=
  ⟨rfl, rfl⟩

/-- **C3** (amended): for every non-empty text and non-empty pattern,
`extract_regex_pattern` applies the pattern case-insensitively with `.`
matching across line breaks (flags `IGNORECASE`/`DOTALL` merged with any
inline flags); a failed compile is caught and yields `""`; no match
yields `""`; a match with no capture groups yields `""`; a match whose
first group participated returns that group's content stripped of
whitespace; a match whose first group did not participate raises
`AttributeError` (see the counterexample).  The match used is the
leftmost one: there is no match at any earlier position. -/
theorem claim_C3_extract_regex_pattern (text : String) (cfg : RuleInstr) (pat : String)
    (hp : cfg.pattern = some pat) (ht : text ≠ "") (hp0 : pat ≠ "") :
    (compilePy pat = none → extract_regex_pattern text cfg = .ok "") ∧
    (∀ r ng ifl, compilePy pat = some (r, ng, ifl) →
      (reSearch (ifl.merge ⟨true, true⟩) r text.data = none →
        extract_regex_pattern text cfg = .ok "") ∧
      (∀ i m env, reSearch (ifl.merge ⟨true, true⟩) r text.data = some (i, m, env) →
        (matchAt (ifl.merge ⟨true, true⟩) r text.data i = some (m, env) ∧
          ∀ j, j < i → matchAt (ifl.merge ⟨true, true⟩) r text.data j = none) ∧
        (ng = 0 → extract_regex_pattern text cfg = .ok "") ∧
        (ng ≠ 0 → ∀ g, genvGet env 1 = some g →
          extract_regex_pattern text cfg = .ok (String.mk (pyStrip g))) ∧
        (ng ≠ 0 → genvGet env 1 = none →
          extract_regex_pattern text cfg = .error .attributeError))) := by
  constructor
  · intro hc
    simp only [extract_regex_pattern, hp, Option.getD_some]
    rw [if_neg (by simp [ht, hp0]), hc]
  · intro r ng ifl hc
    constructor
    · intro hs
      simp only [extract_regex_pattern, hp, Option.getD_some]
      rw [if_neg (by simp [ht, hp0])]
      simp only [hc, hs]
    · intro i m env hs
      have hleft := reSearch_leftmost (ifl.merge ⟨true, true⟩) r text.data i m env hs
      refine ⟨⟨hleft.2.1, hleft.2.2⟩, ?_, ?_, ?_⟩
      · intro hng
        simp only [extract_regex_pattern, hp, Option.getD_some]
        rw [if_neg (by simp [ht, hp0])]
        simp only [hc, hs]
        rw [if_neg (fun hh => hh hng)]
      · intro hng g hg
        simp only [extract_regex_pattern, hp, Option.getD_some]
        rw [if_neg (by simp [ht, hp0])]
        simp only [hc, hs]
        rw [if_pos hng, hg]
      · intro hng hg
        simp only [extract_regex_pattern, hp, Option.getD_some]
        rw [if_neg (by simp [ht, hp0])]
        simp only [hc, hs]
        rw [if_pos hng, hg]

/-- Witness for C3's amended theorem: pattern `(\d)` on `"x7"` matches at
position 1 with group 1 = `"7"`, and the function returns `"7"`; the
spec's own Date example evaluates as described. -/
theorem claim_C3_witness :
    extract_regex_pattern "x7" ⟨none, none, none, none, none, some "(\\d)"⟩ = .ok "7" ∧
    extract_regex_pattern "Date: 2024-01-05"
      ⟨none, none, none, none, none, some "Date\\s*:\\s*(\\d{4}-\\d{2}-\\d{2})"⟩ =
      .ok "2024-01-05" := by
  constructor
  · have h := claim_C3_extract_regex_pattern "x7"
      ⟨none, none, none, none, none, some "(\\d)"⟩ "(\\d)" rfl (by decide) (by decide)
    have h2 := (h.2 (Rx.grp 1 (Rx.cls false [ClsItem.cdigit])) 1 ⟨false, false⟩ rfl).2
      1 ['7'] [(1, ['7'])] rfl
    exact h2.2.2.1 (by decide) ['7'] rfl
  · rfl

/-- The special characters of `re` pattern syntax — what "any regex
metacharacter" denotes in the claim. -/
def specRegexMetaChars : List Char :=
  ['.', '^', '$', '*', '+', '?', '{', '}', '[', ']', '\\', '|', '(', ')']

/-- **C4** (counterexample): `"$"` is a regex metacharacter, so the claim
requires it to be used verbatim; the code's classifier tests only
`startswith(r"\s*")` and the class `[|\[\](){}.*+?]`, which lacks `$`
(and `^` and `\`), so this delimiter is escaped to `"\$"` instead of
being used verbatim. -/
theorem claim_C4_counterexample :
    ('$' ∈ specRegexMetaChars) ∧ delimiterRegexOf "$" = "\\$" ∧
      delimiterRegexOf "$" ≠ "$" :=
  ⟨by decide, rfl, by decide⟩

/-- **C4** (amended): the delimiter is used verbatim iff it starts with
the three characters `\s*` or contains one of the characters
`|[](){}.*+?` (not: any regex metacharacter — `^`, `$` and a bare `\`
do not trigger verbatim use); otherwise it is escaped with `re.escape`.
The claim's example delimiter `\s*[:\-#]\s*` is taken verbatim and
matches `"Total - 20"` and `"Total#20"` equally: both extractions yield
`"20"`. -/
theorem claim_C4_delimiter_classification :
    (∀ d : String,
      ((listStartsWith d.data "\\s*".data ||
          d.data.any (fun c => codeDelimMeta.contains c)) = true →
        delimiterRegexOf d = d) ∧
      ((listStartsWith d.data "\\s*".data ||
          d.data.any (fun c => codeDelimMeta.contains c)) = false →
        delimiterRegexOf d = pyReEscape d)) ∧
    delimiterRegexOf "\\s*[:\\-#]\\s*" = "\\s*[:\\-#]\\s*" ∧
    extract_key_value "Total - 20"
      ⟨none, none, none, some ["Total"], some "\\s*[:\\-#]\\s*", none⟩ = .ok "20" ∧
    extract_key_value "Total#20"
      ⟨none, none, none, some ["Total"], some "\\s*[:\\-#]\\s*", none⟩ = .ok "20" := by
  refine ⟨?_, rfl, rfl, rfl⟩
  intro d
  constructor
  · intro h
    unfold delimiterRegexOf
    rw [if_pos h]
  · intro h
    unfold delimiterRegexOf
    rw [if_neg (fun hh => Bool.false_ne_true (h ▸ hh))]

/-- Witness for C4's amended theorem: `"\s*"` is classified verbatim,
`"-"` (no metacharacter from the code's class) is escaped to `"\-"`. -/
theorem claim_C4_witness :
    delimiterRegexOf "\\s*" = "\\s*" ∧ delimiterRegexOf "-" = "\\-" := by
  constructor
  · exact (claim_C4_delimiter_classification.1 "\\s*").1 (by decide)
  · exact ((claim_C4_delimiter_classification.1 "-").2 (by decide)).trans rfl

/-- Modelled from the claim's words, for the refinement comparison of C5:
escape each key pattern exactly as given (no trimming, no discarding of
blank patterns) and join the alternatives. -/
def extract_key_value_claim (text : String) (config : RuleInstr) : String :=
  let key_patterns := config.key_patterns.getD []
  let delimiter_regex := delimiterRegexOf (config.delimiter.getD ":")
  if text = "" || key_patterns = [] then ""
  else
    match compilePy ("(?:" ++ String.intercalate "|" (key_patterns.map pyReEscape) ++
        ")\\s*" ++ delimiter_regex ++ "\\s*(.*?)(?=\\n|$)") with
    | none => ""
    | some (r, _, ifl) =>
      match reSearch (ifl.merge ⟨true, false⟩) r text.data with
      | none => ""
      | some (_, _, env) =>
        match genvGet env 1 with
        | some g => String.mk (pyStrip g)
        | none => ""

/-- **C5** (counterexample): on the non-empty key-pattern list `[""]`
and text `": hi"`, the construction the claim describes (escape each key
pattern, join as alternatives) matches with the empty alternative and
returns `"hi"`, but the code first trims each key pattern and discards
the empties, leaving no pattern at all, and returns `""`. -/
theorem claim_C5_counterexample :
    extract_key_value_claim ": hi" ⟨none, none, none, some [""], some ":", none⟩ = "hi" ∧
    extract_key_value ": hi" ⟨none, none, none, some [""], some ":", none⟩ = .ok "" :=
  ⟨rfl, rfl⟩

/-- **C5** (amended): `extract_key_value` first trims each key pattern
and discards those left empty; if none remain (in particular on an empty
`key_patterns` list) or the text is empty it returns `""`; otherwise it
escapes each trimmed key as a literal, joins the alternatives, matches
case-insensitively, and on the leftmost match (no match exists at any
earlier position) returns the captured value — `(.*?)` up to the
lookahead `(?=\n|$)` — stripped of whitespace; no match yields `""`. -/
theorem claim_C5_extract_key_value (text : String) (cfg : RuleInstr)
    (keys : List String) (hk : cfg.key_patterns = some keys) :
    (text = "" → extract_key_value text cfg = .ok "") ∧
    (∀ escaped, escaped = keys.filterMap (fun k =>
        if pyStripStr k = "" then none else some (pyReEscape (pyStripStr k))) →
      (escaped = [] → extract_key_value text cfg = .ok "") ∧
      (text ≠ "" → escaped ≠ [] →
        ∀ r ng ifl, compilePy ("(?:" ++ String.intercalate "|" escaped ++ ")\\s*" ++
            delimiterRegexOf (cfg.delimiter.getD ":") ++ "\\s*(.*?)(?=\\n|$)") =
              some (r, ng, ifl) →
          (reSearch (ifl.merge ⟨true, false⟩) r text.data = none →
            extract_key_value text cfg = .ok "") ∧
          (∀ i m env, reSearch (ifl.merge ⟨true, false⟩) r text.data = some (i, m, env) →
            (matchAt (ifl.merge ⟨true, false⟩) r text.data i = some (m, env) ∧
              ∀ j, j < i → matchAt (ifl.merge ⟨true, false⟩) r text.data j = none) ∧
            (∀ g, genvGet env 1 = some g →
              extract_key_value text cfg = .ok (String.mk (pyStrip g)))))) := by
  constructor
  · intro ht
    simp only [extract_key_value, hk, Option.getD_some]
    rw [if_pos (by simp [ht])]
  · intro escaped hesc
    constructor
    · intro he
      by_cases ht : text = ""
      · simp only [extract_key_value, hk, Option.getD_some]
        rw [if_pos (by simp [ht])]
      · by_cases hkeys : keys = []
        · simp only [extract_key_value, hk, Option.getD_some]
          rw [if_pos (by simp [hkeys])]
        · simp only [extract_key_value, hk, Option.getD_some]
          rw [if_neg (by simp [ht, hkeys])]
          rw [← hesc]
          rw [if_pos he]
    · intro ht he r ng ifl hc
      have hkeys : keys ≠ [] := by
        intro hkn
        apply he
        rw [hesc, hkn]
        rfl
      constructor
      · intro hs
        simp only [extract_key_value, hk, Option.getD_some]
        rw [if_neg (by simp [ht, hkeys]), ← hesc, if_neg he]
        simp only [hc, hs]
      · intro i m env hs
        have hleft := reSearch_leftmost (ifl.merge ⟨true, false⟩) r text.data i m env hs
        refine ⟨⟨hleft.2.1, hleft.2.2⟩, ?_⟩
        intro g hg
        simp only [extract_key_value, hk, Option.getD_some]
        rw [if_neg (by simp [ht, hkeys]), ← hesc, if_neg he]
        simp only [hc, hs, hg]

/-- Witness for C5's amended theorem: key `"K"`, delimiter `":"`, text
`"K: v"` yields `"v"`; the spec's Status example yields `"Shipped"`. -/
theorem claim_C5_witness :
    extract_key_value "K: v" ⟨none, none, none, some ["K"], some ":", none⟩ = .ok "v" ∧
    extract_key_value "Status: Shipped\nTotal: 20"
      ⟨none, none, none, some ["Status"], some ":", none⟩ = .ok "Shipped" := by
  constructor
  · have h := claim_C5_extract_key_value "K: v"
      ⟨none, none, none, some ["K"], some ":", none⟩ ["K"] rfl
    have h2 := (h.2 ["K"] rfl).2 (by decide) (by decide)
      (Rx.seq (Rx.lit 'K') (Rx.seq (Rx.star false (Rx.cls false [ClsItem.cspace]))
        (Rx.seq (Rx.lit ':') (Rx.seq (Rx.star false (Rx.cls false [ClsItem.cspace]))
          (Rx.seq (Rx.grp 1 (Rx.star true Rx.dot))
            (Rx.look (Rx.alt (Rx.lit '\n') Rx.eol)))))))
      1 ⟨false, false⟩ rfl
    exact (h2.2 0 ['K', ':', ' ', 'v'] [(1, ['v'])] rfl).2 ['v'] rfl
  · rfl

theorem applyRules_append (hs : List (Option String × Option String)) (b : String)
    (xs ys : List RuleInstr) :
    ∀ parsed, applyRules hs b (xs ++ ys) parsed =
      (applyRules hs b xs parsed).bind (fun p => applyRules hs b ys p) := by
  induction xs with
  | nil =>
    intro parsed
    simp [applyRules, Except.bind]
  | cons i t ih =>
    intro parsed
    cases hr : ruleExtract hs b i with
    | error e =>
      rw [List.cons_append]
      simp only [applyRules, hr]
      rfl
    | ok w =>
      rw [List.cons_append,
        applyRules_cons_ok hs b (t ++ ys) parsed i w hr,
        applyRules_cons_ok hs b t parsed i w hr, ih]

theorem parse_email_ok_elim (msg : PyMsg) (rules : List RuleInstr) (kws : String)
    (m : PyDict) (h : parse_email msg rules kws = .ok m) :
    ∃ parsed, applyRules (msgHeaders msg) (msgBody msg) rules (seedDict msg) = .ok parsed ∧
      m = applyPriority (priorityKeywordsOf kws) (msgCombined msg) parsed := by
  unfold parse_email at h
  cases happ : applyRules (msgHeaders msg) (msgBody msg) rules (seedDict msg) with
  | error e =>
    rw [happ] at h
    simp only [Bind.bind, Except.bind] at h
    cases h
  | ok parsed =>
    rw [happ] at h
    refine ⟨parsed, rfl, ?_⟩
    simp only [Bind.bind, Except.bind, pure, Except.pure] at h
    injection h with h1
    exact h1.symm

theorem seedDict_keys (msg : PyMsg) (f : String) :
    (dictGet (seedDict msg) f).isSome = true ↔ f ∈ standardFields := by
  rw [dictGet_isSome_iff_mem_keys]
  exact Iff.rfl

theorem standardFields_ne_empty : ∀ f ∈ standardFields, f ≠ "" := by decide

/-- **C7** (counterexample): with the empty keyword string (empty keyword
list) but a rule whose `output_field` is `"Priority"`, the returned
mapping's Priority is the rule's value `"Low"`, not the default
`"Normal"` — the claim's "an empty keyword list always yields Normal"
fails because rule application may overwrite the Priority key first. -/
theorem claim_C7_counterexample :
    priorityKeywordsOf "" = [] ∧
    parse_email ⟨some "m1", none, some (Payload.mk none none [] [(some "H", some "Low")])⟩
      [⟨some "Priority", some "header", some "H", none, none, none⟩] "" =
      .ok [("Message ID", some "m1"), ("Thread ID", none), ("Subject", some ""),
        ("From", some ""), ("Date", some ""), ("Body (plain)", some ""),
        ("Priority", some "Low")] ∧
    dictGet [("Message ID", some "m1"), ("Thread ID", none), ("Subject", some ""),
        ("From", some ""), ("Date", some ""), ("Body (plain)", some ""),
        ("Priority", some "Low")] "Priority" = some (some "Low") ∧
    some (some "Low") ≠ some (some "Normal") :=
  ⟨rfl, rfl, rfl, by decide⟩

/-- **C7** (amended): provided no rule writes the `"Priority"` key, the
keyword list is the comma-split, trimmed, empties-discarded form of the
configured string; Priority is `"High"` iff some keyword matches —
case-insensitively, whole-word (`\b` boundaries), against the
whitespace-collapsed lowercased subject+body+sender — and with no
keyword hit (in particular with an empty keyword list) it remains the
default `"Normal"`. -/
theorem claim_C7_priority (msg : PyMsg) (rules : List RuleInstr) (kws : String)
    (m : PyDict) (hrules : ∀ rule ∈ rules, rule.output_field ≠ some "Priority")
    (h : parse_email msg rules kws = .ok m) :
    (∀ kw, kw ∈ priorityKeywordsOf kws ↔
      (kw ∈ (pySplitComma kws.data).map (fun g => pyStripStr (String.mk g)) ∧ kw ≠ "")) ∧
    (dictGet m "Priority" = some (some "High") ↔
      ∃ kw ∈ priorityKeywordsOf kws, kwSearchHigh kw (msgCombined msg) = true) ∧
    (priorityKeywordsOf kws = [] → dictGet m "Priority" = some (some "Normal")) := by
  obtain ⟨parsed, happ, hm⟩ := parse_email_ok_elim msg rules kws m h
  have hpr : dictGet parsed "Priority" = some (some "Normal") := by
    rw [applyRules_get_ne (msgHeaders msg) (msgBody msg) rules "Priority"
      (seedDict msg) parsed hrules happ]
    rfl
  refine ⟨?_, ?_, ?_⟩
  · intro kw
    simp [priorityKeywordsOf, List.mem_filter]
  · subst hm
    cases hf : (priorityKeywordsOf kws).find?
        (fun kw => kwSearchHigh kw (msgCombined msg)) with
    | some kw =>
      have hhit := applyPriority_hit (priorityKeywordsOf kws) (msgCombined msg) parsed
        (by rw [hf]; rfl)
      rw [hhit]
      have hmem := List.mem_of_find?_eq_some hf
      have hkw := List.find?_some hf
      simp only [true_iff]
      exact ⟨kw, hmem, hkw⟩
    | none =>
      rw [applyPriority_miss _ _ _ hf, hpr]
      constructor
      · intro hcontra
        injection hcontra with h1
        injection h1 with h2
        exact absurd h2.symm (by decide)
      · rintro ⟨kw, hmem, hkw⟩
        have := List.find?_eq_none.mp hf kw hmem
        exact absurd hkw this
  · intro hempty
    subst hm
    rw [applyPriority_miss _ _ _ (by rw [hempty]; rfl), hpr]

/-- Witness for C7's amended theorem: subject "URGENT: please refund"
with keyword string "urgent, refund" yields Priority "High". -/
theorem claim_C7_witness :
    dictGet [("Message ID", some "m1"), ("Thread ID", some "t1"),
      ("Subject", some "URGENT: please refund"), ("From", some "a@b.c"), ("Date", some ""),
      ("Body (plain)", some "Plain"), ("Priority", some "High")] "Priority" =
      some (some "High") := by
  have h := claim_C7_priority
    ⟨some "m1", some "t1", some (Payload.mk (some "text/plain") (some "UGxhaW4=") []
      [(some "Subject", some "URGENT: please refund"), (some "From", some "a@b.c")])⟩
    [] "urgent, refund"
    [("Message ID", some "m1"), ("Thread ID", some "t1"),
      ("Subject", some "URGENT: please refund"), ("From", some "a@b.c"), ("Date", some ""),
      ("Body (plain)", some "Plain"), ("Priority", some "High")]
    (by intro rule hr; cases hr) rfl
  exact h.2.1.mpr ⟨"urgent", by decide, rfl⟩

/-- **C9** (counterexample): a rule whose `output_field` is the standard
name `"Subject"` and whose extraction yields `""` adds nothing, yet the
returned mapping still contains the key `"Subject"` (it is seeded
unconditionally) — refuting the claim's "contains a rule's output_field
as a key if and only if that rule's extraction produced a non-empty
value". -/
theorem claim_C9_counterexample :
    ruleExtract [] "" ⟨some "Subject", some "header", some "X-Missing", none, none, none⟩ =
      .ok "" ∧
    parse_email ⟨none, none, none⟩
      [⟨some "Subject", some "header", some "X-Missing", none, none, none⟩] "" =
      .ok [("Message ID", none), ("Thread ID", none), ("Subject", some ""),
        ("From", some ""), ("Date", some ""), ("Body (plain)", some ""),
        ("Priority", some "Normal")] ∧
    (dictGet [("Message ID", none), ("Thread ID", none), ("Subject", some ""),
        ("From", some ""), ("Date", some ""), ("Body (plain)", some ""),
        ("Priority", some "Normal")] "Subject").isSome = true :=
  ⟨rfl, rfl, rfl⟩

/-- **C9** (amended): whenever `parse_email` returns a mapping, it
contains the seven standard fields unconditionally, and contains a
NON-standard field name `f` as a key iff some rule with
`output_field = f` (with `f` non-empty) produced a non-empty extracted
value.  (For a standard name the key is present regardless of any rule,
see the counterexample; and for certain malformed rule patterns
`parse_email` raises instead of returning a mapping, see C2.) -/
theorem claim_C9_result_keys (msg : PyMsg) (rules : List RuleInstr) (kws : String)
    (m : PyDict) (h : parse_email msg rules kws = .ok m) :
    (∀ f ∈ standardFields, (dictGet m f).isSome = true) ∧
    (∀ f, f ∉ standardFields →
      ((dictGet m f).isSome = true ↔
        ∃ rule ∈ rules, rule.output_field = some f ∧ f ≠ "" ∧
          ∃ v, ruleExtract (msgHeaders msg) (msgBody msg) rule = .ok v ∧ v ≠ "")) := by
  obtain ⟨parsed, happ, hm⟩ := parse_email_ok_elim msg rules kws m h
  constructor
  · intro f hf
    subst hm
    apply applyPriority_isSome_mono
    rw [applyRules_key_iff (msgHeaders msg) (msgBody msg) rules (seedDict msg) parsed happ f]
    exact Or.inl ((seedDict_keys msg f).mpr hf)
  · intro f hf
    subst hm
    have hfp : f ≠ "Priority" := by
      intro he
      subst he
      exact hf (by decide)
    have hget : dictGet (applyPriority (priorityKeywordsOf kws) (msgCombined msg) parsed) f =
        dictGet parsed f :=
      applyPriority_get_ne (priorityKeywordsOf kws) (msgCombined msg) parsed f hfp
    rw [hget,
      applyRules_key_iff (msgHeaders msg) (msgBody msg) rules (seedDict msg) parsed happ f]
    constructor
    · rintro (hseed | hrule)
      · exact absurd ((seedDict_keys msg f).mp hseed) hf
      · exact hrule
    · exact Or.inr

/-- Witness for C9's amended theorem: a `key_value` rule extracting
`"Shipped"` into the non-standard field `"Order Status"` makes that key
present. -/
theorem claim_C9_witness :
    (dictGet [("Message ID", some "m1"), ("Thread ID", none), ("Subject", some ""),
      ("From", some ""), ("Date", some ""), ("Body (plain)", some "Status: Shipped"),
      ("Priority", some "Normal"), ("Order Status", some "Shipped")]
      "Order Status").isSome = true := by
  have h := claim_C9_result_keys
    ⟨some "m1", none, some (Payload.mk (some "text/plain")
      (some "U3RhdHVzOiBTaGlwcGVk") [] [])⟩
    [⟨some "Order Status", some "key_value", none, some ["Status"], some ":", none⟩] ""
    [("Message ID", some "m1"), ("Thread ID", none), ("Subject", some ""),
      ("From", some ""), ("Date", some ""), ("Body (plain)", some "Status: Shipped"),
      ("Priority", some "Normal"), ("Order Status", some "Shipped")]
    rfl
  exact (h.2 "Order Status" (by decide)).mpr
    ⟨⟨some "Order Status", some "key_value", none, some ["Status"], some ":", none⟩,
      by decide, rfl, by decide, "Shipped", rfl, by decide⟩

/-- **C10** (counterexample): a rule writing a non-empty value into
`"Priority"` does overwrite that standard field, but the returned
mapping need not hold the rule's value: the keyword pass afterwards
replaces it with `"High"` when a keyword matches.  Here the rule
extracts `"Low"` yet the returned Priority is `"High"`. -/
theorem claim_C10_counterexample :
    ruleExtract (msgHeaders ⟨some "m9", none, some (Payload.mk none none []
        [(some "Subject", some "urgent news"), (some "H", some "Low")])⟩)
      (msgBody ⟨some "m9", none, some (Payload.mk none none []
        [(some "Subject", some "urgent news"), (some "H", some "Low")])⟩)
      ⟨some "Priority", some "header", some "H", none, none, none⟩ = .ok "Low" ∧
    parse_email ⟨some "m9", none, some (Payload.mk none none []
        [(some "Subject", some "urgent news"), (some "H", some "Low")])⟩
      [⟨some "Priority", some "header", some "H", none, none, none⟩] "urgent" =
      .ok [("Message ID", some "m9"), ("Thread ID", none), ("Subject", some "urgent news"),
        ("From", some ""), ("Date", some ""), ("Body (plain)", some ""),
        ("Priority", some "High")] ∧
    dictGet [("Message ID", some "m9"), ("Thread ID", none), ("Subject", some "urgent news"),
        ("From", some ""), ("Date", some ""), ("Body (plain)", some ""),
        ("Priority", some "High")] "Priority" = some (some "High") ∧
    some (some "High") ≠ some (some "Low") :=
  ⟨rfl, rfl, rfl, by decide⟩

/-- **C10** (amended): if the LAST rule's `output_field` is one of the
seven standard field names and its extraction yields a non-empty value,
`parse_email` silently overwrites that standard field in the returned
mapping with the rule's extracted value — rule application is not
confined to rule-derived keys.  For `"Priority"` this holds provided no
priority keyword subsequently matches (otherwise the keyword pass
replaces the value with `"High"`, see the counterexample). -/
theorem claim_C10_rule_overwrites_standard (msg : PyMsg) (pre : List RuleInstr)
    (r : RuleInstr) (f : String) (v : String) (kws : String) (m : PyDict)
    (hof : r.output_field = some f) (hstd : f ∈ standardFields)
    (hex : ruleExtract (msgHeaders msg) (msgBody msg) r = .ok v) (hv : v ≠ "")
    (h : parse_email msg (pre ++ [r]) kws = .ok m) :
    (f ≠ "Priority" → dictGet m f = some (some v)) ∧
    (f = "Priority" →
      (priorityKeywordsOf kws).find? (fun kw => kwSearchHigh kw (msgCombined msg)) = none →
      dictGet m f = some (some v)) := by
  obtain ⟨parsed, happ, hm⟩ := parse_email_ok_elim msg (pre ++ [r]) kws m h
  rw [applyRules_append (msgHeaders msg) (msgBody msg) pre [r] (seedDict msg)] at happ
  cases hpre : applyRules (msgHeaders msg) (msgBody msg) pre (seedDict msg) with
  | error e =>
    rw [hpre] at happ
    simp only [Except.bind] at happ
    cases happ
  | ok p1 =>
    rw [hpre] at happ
    simp only [Except.bind] at happ
    rw [applyRules_cons_ok (msgHeaders msg) (msgBody msg) [] p1 r v hex] at happ
    have hcond : (!(v == "") && truthyStr r.output_field) = true := by
      rw [Bool.and_eq_true]
      refine ⟨by simpa using hv, (truthyStr_iff _).mpr ⟨f, hof, standardFields_ne_empty f hstd⟩⟩
    rw [if_pos hcond] at happ
    simp only [applyRules] at happ
    injection happ with happ1
    have hkey : r.output_field.getD "" = f := by rw [hof]; rfl
    rw [hkey] at happ1
    subst hm
    constructor
    · intro hfp
      rw [applyPriority_get_ne _ _ _ f hfp, ← happ1, dictGet_dictSet_self]
    · intro _ hnone
      rw [applyPriority_miss _ _ _ hnone, ← happ1, dictGet_dictSet_self]

/-- Witness for C10's amended theorem: a header rule writing `"NEW"` into
the standard field `"Subject"` overwrites its seeded (empty) value. -/
theorem claim_C10_witness :
    dictGet [("Message ID", some "m8"), ("Thread ID", none), ("Subject", some "NEW"),
      ("From", some ""), ("Date", some ""), ("Body (plain)", some ""),
      ("Priority", some "Normal")] "Subject" = some (some "NEW") := by
  have h := claim_C10_rule_overwrites_standard
    ⟨some "m8", none, some (Payload.mk none none [] [(some "X", some "NEW")])⟩
    [] ⟨some "Subject", some "header", some "X", none, none, none⟩
    "Subject" "NEW" ""
    [("Message ID", some "m8"), ("Thread ID", none), ("Subject", some "NEW"),
      ("From", some ""), ("Date", some ""), ("Body (plain)", some ""),
      ("Priority", some "Normal")]
    rfl (by decide) rfl (by decide) rfl
  exact h.1 (by decide)

/-- **C6** (confirmed): for every byte sequence, `safe_b64_decode` on its
URL-safe base64 encoding — fully padded or with the `=` padding stripped
(the function pads with `=` to a multiple of four before decoding) —
returns the UTF-8 decoding of those bytes, i.e. the original text when
the bytes are that text's UTF-8 encoding; on every other input it
returns a string (empty, or the replacement-decoding of some byte
sequence) without raising; empty or absent input yields the empty
string. -/
theorem claim_C6_safe_b64_decode :
    (∀ (bs : List Nat) (txt : String), (∀ b ∈ bs, b < 256) →
      utf8DecodeReplace bs = txt →
      safe_b64_decode (some (String.mk (b64urlEncode bs))) = txt ∧
      safe_b64_decode (some (String.mk (b64EncBody bs))) = txt) ∧
    (∀ s : String, safe_b64_decode (some s) = "" ∨
      ∃ bs : List Nat, safe_b64_decode (some s) = utf8DecodeReplace bs) ∧
    safe_b64_decode (some "") = "" ∧ safe_b64_decode none = "" := by
  refine ⟨?_, safe_b64_decode_total, rfl, rfl⟩
  intro bs txt hb htxt
  exact ⟨htxt ▸ safe_b64_decode_padded bs hb, htxt ▸ safe_b64_decode_unpadded bs hb⟩

/-- Witness for C6: the bytes of `"Hi!"` encode (unpadded) to `"SGkh"`,
and `safe_b64_decode` recovers `"Hi!"`; the spec example `"UGxhaW4="`
(padded) decodes to `"Plain"`. -/
theorem claim_C6_witness :
    String.mk (b64urlEncode [72, 105, 33]) = "SGkh" ∧
    safe_b64_decode (some (String.mk (b64urlEncode [72, 105, 33]))) = "Hi!" ∧
    String.mk (b64urlEncode [80, 108, 97, 105, 110]) = "UGxhaW4=" ∧
    safe_b64_decode (some (String.mk (b64urlEncode [80, 108, 97, 105, 110]))) = "Plain" := by
  refine ⟨rfl, ?_, rfl, ?_⟩
  · exact (claim_C6_safe_b64_decode.1 [72, 105, 33] "Hi!" (by decide) (by decide)).1
  · exact (claim_C6_safe_b64_decode.1 [80, 108, 97, 105, 110] "Plain"
      (by decide) (by decide)).1

/-! ## The whitespace-collapse pass

`strip_html`'s final `re.sub(r"\s+", " ", text)` is proved equal, for
every input, to a direct one-pass collapser — so the regex machinery
really does replace every maximal whitespace run by a single space. -/

/-- The compiled class `\s`. -/
def wsCls : Rx := Rx.cls false [ClsItem.cspace]

/-- The compiled pattern `\s+`. -/
def wsRx : Rx := Rx.seq wsCls (Rx.star false wsCls)

theorem compile_wsPlus : compilePy "\\s+" = some (wsRx, 0, ⟨false, false⟩) := rfl

/-- Direct specification of "collapse every whitespace run into a single
space": the Boolean records whether we are inside a run whose single
space has already been emitted. -/
def collapseAux : Bool → List Char → List Char
  | _, [] => []
  | inRun, c :: cs =>
    if isPyWs c then
      if inRun then collapseAux true cs else ' ' :: collapseAux true cs
    else c :: collapseAux false cs

theorem clsMatch_ws (c : Char) : clsMatch false false [ClsItem.cspace] c = isPyWs c := by
  simp [clsMatch, clsItemMatch]

/-- The last character of `W`, or `prev` when `W` is empty. -/
def lastOr (prev : Option Char) (W : List Char) : Option Char :=
  match W.getLast? with
  | some c => some c
  | none => prev

theorem lastOr_cons (prev : Option Char) (w : Char) (W' : List Char) :
    lastOr (some w) W' = lastOr prev (w :: W') := by
  cases W' with
  | nil => simp [lastOr]
  | cons b bs =>
    unfold lastOr
    rw [List.getLast?_cons_cons]
    cases h : (b :: bs).getLast? with
    | some c => rfl
    | none => exact absurd h (by simp)

theorem mrun_wsCls_nil (f : Nat) (prev : Option Char) (env : GEnv) :
    mrun noFlags (f + 1) wsCls ⟨prev, []⟩ env = [] := rfl

theorem mrun_wsCls_cons (f : Nat) (prev : Option Char) (x : Char) (xs : List Char)
    (env : GEnv) :
    mrun noFlags (f + 1) wsCls ⟨prev, x :: xs⟩ env =
      if isPyWs x then [(⟨some x, xs⟩, env)] else [] := by
  simp only [wsCls, mrun, noFlags, clsMatch_ws, MSt.step]

theorem length_tw_add_dw (p : Char → Bool) (l : List Char) :
    (l.takeWhile p).length + (l.dropWhile p).length = l.length := by
  conv_rhs => rw [← List.takeWhile_append_dropWhile p l]
  rw [List.length_append]

/-- One-step unfolding of the matcher on a repetition node. -/
theorem mrun_star_unfold (fl : RFlags) (f : Nat) (lz : Bool) (r : Rx) (st : MSt) (env : GEnv) :
    mrun fl (f + 1) (Rx.star lz r) st env =
      if lz then
        (st, env) :: ((mrun fl f r st env).filter
            (fun p => p.1.rest.length < st.rest.length)).flatMap
          (fun p => mrun fl f (Rx.star lz r) p.1 p.2)
      else
        (((mrun fl f r st env).filter (fun p => p.1.rest.length < st.rest.length)).flatMap
          (fun p => mrun fl f (Rx.star lz r) p.1 p.2)) ++ [(st, env)] := rfl

theorem mrun_star_ws : ∀ (W rest : List Char) (prev : Option Char) (env : GEnv) (f : Nat),
    (∀ c ∈ W, isPyWs c = true) →
    (∀ c, rest.head? = some c → isPyWs c = false) →
    W.length + 2 ≤ f →
    (mrun noFlags f (Rx.star false wsCls) ⟨prev, W ++ rest⟩ env).head? =
      some (⟨lastOr prev W, rest⟩, env) := by
  intro W
  induction W with
  | nil =>
    intro rest prev env f _ hrest hf
    obtain ⟨f2, rfl⟩ : ∃ f2, f = f2 + 1 + 1 := ⟨f - 2, by omega⟩
    rw [List.nil_append, mrun_star_unfold, if_neg (by simp)]
    cases rest with
    | nil =>
      rw [mrun_wsCls_nil]
      simp [lastOr]
    | cons x xs =>
      have hx : isPyWs x = false := hrest x rfl
      rw [mrun_wsCls_cons]
      simp [hx, lastOr]
  | cons w W' ih =>
    intro rest prev env f hW hrest hf
    obtain ⟨f2, rfl⟩ : ∃ f2, f = f2 + 1 + 1 := ⟨f - 2, by omega⟩
    have hw : isPyWs w = true := hW w (List.mem_cons_self w W')
    rw [List.cons_append, mrun_star_unfold, if_neg (by simp), mrun_wsCls_cons, if_pos hw]
    have hlt : (((W' ++ rest).length < (⟨prev, w :: (W' ++ rest)⟩ : MSt).rest.length)) := by
      simp
    have hih := ih rest (some w) env (f2 + 1)
      (fun c hc => hW c (List.mem_cons_of_mem w hc)) hrest
      (by simp only [List.length_cons] at hf; omega)
    simp only [List.filter_cons, List.filter_nil, hlt, decide_True, if_true,
      List.flatMap_cons, List.flatMap_nil, List.append_nil, List.head?_append, hih]
    rw [← lastOr_cons prev w W']
    rfl

/-- One-step unfolding of the matcher on a sequence node. -/
theorem mrun_seq_unfold (fl : RFlags) (f : Nat) (a b : Rx) (st : MSt) (env : GEnv) :
    mrun fl (f + 1) (Rx.seq a b) st env =
      (mrun fl f a st env).flatMap (fun p => mrun fl f b p.1 p.2) := rfl

theorem mfuel_wsRx (rest : List Char) : mfuel wsRx rest = rest.length * 6 + 12 := by
  simp only [mfuel, wsRx, wsCls, rxSize]
  ring

theorem mrun_wsRx_nomatch (f : Nat) (prev : Option Char) (rest : List Char) (env : GEnv)
    (hf : 2 ≤ f) (h : ∀ c, rest.head? = some c → isPyWs c = false) :
    mrun noFlags f wsRx ⟨prev, rest⟩ env = [] := by
  obtain ⟨f2, rfl⟩ : ∃ f2, f = f2 + 1 + 1 := ⟨f - 2, by omega⟩
  rw [show wsRx = Rx.seq wsCls (Rx.star false wsCls) from rfl, mrun_seq_unfold]
  cases rest with
  | nil => rw [mrun_wsCls_nil]; rfl
  | cons x xs =>
    rw [mrun_wsCls_cons, if_neg (by simp [h x rfl])]
    rfl

theorem mrun_wsRx_match (f : Nat) (prev : Option Char) (x : Char) (xs : List Char)
    (env : GEnv) (hx : isPyWs x = true) (hf : xs.length + 3 ≤ f) :
    (mrun noFlags f wsRx ⟨prev, x :: xs⟩ env).head? =
      some (⟨lastOr (some x) (xs.takeWhile isPyWs), xs.dropWhile isPyWs⟩, env) := by
  obtain ⟨f3, rfl⟩ : ∃ f3, f = f3 + 1 + 1 := ⟨f - 2, by omega⟩
  rw [show wsRx = Rx.seq wsCls (Rx.star false wsCls) from rfl, mrun_seq_unfold,
    mrun_wsCls_cons, if_pos hx]
  simp only [List.flatMap_cons, List.flatMap_nil, List.append_nil]
  have hstar := mrun_star_ws (xs.takeWhile isPyWs) (xs.dropWhile isPyWs) (some x) env (f3 + 1)
    (fun c hc => List.mem_takeWhile_imp hc)
    (fun c hc => by
      have h2 := List.head?_dropWhile_not isPyWs xs
      rw [hc] at h2
      exact h2)
    (by
      have hl := length_tw_add_dw isPyWs xs
      omega)
  rw [List.takeWhile_append_dropWhile] at hstar
  exact hstar

theorem subFind_wsRx : ∀ (rest : List Char) (prev : Option Char),
    subFind noFlags wsRx prev rest =
      match rest.dropWhile (fun c => !isPyWs c) with
      | [] => none
      | b :: bs =>
        some (rest.takeWhile (fun c => !isPyWs c), b :: bs.takeWhile isPyWs,
          ⟨lastOr (some b) (bs.takeWhile isPyWs), bs.dropWhile isPyWs⟩) := by
  intro rest
  induction rest with
  | nil =>
    intro prev
    simp only [subFind]
    rfl
  | cons c cs ih =>
    intro prev
    by_cases hws : isPyWs c = true
    · simp only [subFind]
      rw [mrun_wsRx_match (mfuel wsRx (c :: cs)) prev c cs [] hws
        (by rw [mfuel_wsRx]; simp only [List.length_cons]; omega)]
      have htake : (c :: cs).take ((c :: cs).length - (cs.dropWhile isPyWs).length) =
          c :: cs.takeWhile isPyWs := by
        have hl := length_tw_add_dw isPyWs cs
        have hlen : (c :: cs).length - (cs.dropWhile isPyWs).length =
            (cs.takeWhile isPyWs).length + 1 := by
          simp only [List.length_cons]
          omega
        rw [hlen, List.take_succ_cons]
        congr 1
        exact (List.prefix_iff_eq_take.mp (List.takeWhile_prefix isPyWs)).symm
      have hd : (c :: cs).dropWhile (fun x => !isPyWs x) = c :: cs := by
        rw [List.dropWhile_cons]
        simp [hws]
      have ht : (c :: cs).takeWhile (fun x => !isPyWs x) = [] := by
        rw [List.takeWhile_cons]
        simp [hws]
      rw [hd]
      simp only [ht, htake]
    · have hws' : isPyWs c = false := by
        cases h : isPyWs c
        · rfl
        · exact absurd h hws
      simp only [subFind]
      rw [mrun_wsRx_nomatch _ _ _ _ (by rw [mfuel_wsRx]; omega)
        (fun d hd => by
          simp only [List.head?_cons, Option.some_inj] at hd
          exact hd ▸ hws')]
      rw [ih (some c)]
      have hd : (c :: cs).dropWhile (fun x => !isPyWs x) = cs.dropWhile (fun x => !isPyWs x) := by
        rw [List.dropWhile_cons]
        simp [hws']
      have ht : (c :: cs).takeWhile (fun x => !isPyWs x) =
          c :: cs.takeWhile (fun x => !isPyWs x) := by
        rw [List.takeWhile_cons]
        simp [hws']
      rw [hd, ht]
      cases cs.dropWhile (fun x => !isPyWs x) with
      | nil => rfl
      | cons b bs => rfl

theorem collapseAux_true_drop : ∀ l : List Char,
    collapseAux true l = collapseAux false (l.dropWhile isPyWs) := by
  intro l
  induction l with
  | nil => rfl
  | cons c cs ih =>
    cases hc : isPyWs c with
    | true =>
      simp only [collapseAux, hc, if_true, List.dropWhile_cons, ih]
    | false =>
      simp only [collapseAux, hc, List.dropWhile_cons, Bool.false_eq_true, if_false]

theorem collapseAux_nonws_front : ∀ (A rest : List Char),
    (∀ c ∈ A, isPyWs c = false) →
    collapseAux false (A ++ rest) = A ++ collapseAux false rest := by
  intro A
  induction A with
  | nil => intro rest _; rfl
  | cons a as ih =>
    intro rest h
    have ha : isPyWs a = false := h a (List.mem_cons_self a as)
    simp only [List.cons_append]
    rw [show collapseAux false (a :: (as ++ rest)) = a :: collapseAux false (as ++ rest) from by
      simp [collapseAux, ha]]
    rw [ih rest (fun c hc => h c (List.mem_cons_of_mem a hc))]

theorem collapseAux_all_nonws : ∀ (l : List Char), (∀ c ∈ l, isPyWs c = false) →
    collapseAux false l = l := by
  intro l h
  have hx := collapseAux_nonws_front l [] h
  rw [show collapseAux false ([] : List Char) = [] from rfl, List.append_nil] at hx
  exact hx

theorem dropWhile_nonws_head : ∀ (l : List Char) (b : Char) (bs : List Char),
    l.dropWhile (fun c => !isPyWs c) = b :: bs → isPyWs b = true := by
  intro l
  induction l with
  | nil => intro b bs h; cases h
  | cons c cs ih =>
    intro b bs h
    rw [List.dropWhile_cons] at h
    cases hc : isPyWs c with
    | true =>
      rw [hc] at h
      simp at h
      rw [← h.1]
      exact hc
    | false =>
      rw [hc] at h
      simp at h
      exact ih b bs h

theorem mem_takeWhile_nonws : ∀ (l : List Char) (c : Char),
    c ∈ l.takeWhile (fun x => !isPyWs x) → isPyWs c = false := by
  intro l
  induction l with
  | nil => intro c h; cases h
  | cons a as ih =>
    intro c h
    rw [List.takeWhile_cons] at h
    cases ha : isPyWs a with
    | false =>
      rw [ha] at h
      simp at h
      rcases h with h | h
      · rw [h]; exact ha
      · exact ih c h
    | true =>
      rw [ha] at h
      simp at h

theorem subGo_wsRx : ∀ (f : Nat) (rest : List Char) (prev : Option Char),
    rest.length + 1 ≤ f →
    subGo noFlags wsRx [' '] f prev rest = collapseAux false rest := by
  intro f
  induction f with
  | zero => intro rest prev h; omega
  | succ f ih =>
    intro rest prev h
    simp only [subGo]
    rw [subFind_wsRx]
    cases hdw : rest.dropWhile (fun c => !isPyWs c) with
    | nil =>
      have hall : ∀ c ∈ rest, isPyWs c = false := by
        intro c hc
        simpa using (List.dropWhile_eq_nil_iff.mp hdw) c hc
      rw [collapseAux_all_nonws rest hall]
    | cons b bs =>
      have hb : isPyWs b = true := dropWhile_nonws_head rest b bs hdw
      have hrest : rest = rest.takeWhile (fun c => !isPyWs c) ++ b :: bs := by
        conv_lhs => rw [← List.takeWhile_append_dropWhile (fun c => !isPyWs c) rest]
        rw [hdw]
      have hlenA := congrArg List.length hrest
      rw [List.length_append, List.length_cons] at hlenA
      have hdl : (bs.dropWhile isPyWs).length ≤ bs.length := by
        have hq := length_tw_add_dw isPyWs bs
        omega
      have hlen2 : (bs.dropWhile isPyWs).length + 1 ≤ f := by omega
      show rest.takeWhile (fun c => !isPyWs c) ++ [' '] ++
          subGo noFlags wsRx [' '] f (lastOr (some b) (bs.takeWhile isPyWs)) (bs.dropWhile isPyWs)
        = collapseAux false rest
      rw [ih (bs.dropWhile isPyWs) (lastOr (some b) (bs.takeWhile isPyWs)) hlen2]
      conv_rhs => rw [hrest]
      rw [collapseAux_nonws_front (rest.takeWhile (fun c => !isPyWs c)) (b :: bs)
        (fun c hc => mem_takeWhile_nonws rest c hc)]
      rw [show collapseAux false (b :: bs) = ' ' :: collapseAux true bs from by
        simp [collapseAux, hb]]
      rw [collapseAux_true_drop]
      simp [List.append_assoc]

theorem pySubPat_wsPlus (t : String) :
    pySubPat noFlags "\\s+" " " t = String.mk (collapseAux false t.data) := by
  unfold pySubPat
  rw [compile_wsPlus]
  show String.mk (subGo noFlags wsRx [' '] (t.data.length + 1) none t.data) =
    String.mk (collapseAux false t.data)
  rw [subGo_wsRx (t.data.length + 1) t.data none (Nat.le_refl _)]

/-- C8: for every input string, `strip_html` runs the script/style removal
pass, the two tag-to-newline passes and the tag-strip pass, then collapses
every run of whitespace (including inserted newlines) into a single space
and trims the ends — the final `re.sub("\s+", " ", ...)` provably equals a
direct whitespace-run collapser on all inputs; in particular
`strip_html("<p>Hi<br>there</p>") = "Hi there"`, and empty or absent input
yields the empty string. -/
theorem claim_C8_strip_html :
    (∀ h : String, strip_html (some h) =
      pyStripStr (String.mk (collapseAux false
        ((pySubPat noFlags "<[^>]+>" ""
          (pySubPat noFlags "(?i)</p>" "\n"
            (pySubPat noFlags "(?i)<br\\s*/?>" "\n"
              (pySubPat noFlags "(?is)<(script|style).*?>.*?(</\\1>)" "" h)))).data)))) ∧
    strip_html (some "<p>Hi<br>there</p>") = "Hi there" ∧
    strip_html (some "") = "" ∧
    strip_html none = "" := by
  refine ⟨?_, by rfl, by rfl, rfl⟩
  intro h
  by_cases hh : h = ""
  · subst hh
    rfl
  · simp only [strip_html, if_neg hh]
    rw [pySubPat_wsPlus]
